import Mathlib

set_option autoImplicit false

/-!
Verification development for the gorilla/template compilation pipeline
(template-inheritance resolver in `v0/inline.go` and the escaper pipeline
injector in `v0/escape/pipeline.go`).

The Go code mutates a `parse.Tree` (a map from template name to define
node) in place; here the tree is an association list in map-iteration
order and every mutating function returns the updated tree.  Deep copies
(`CopyList`, `CopyFill`) are identities in the pure setting.  Loops whose
termination in Go depends on data invariants take an explicit fuel
argument and report exhaustion as an error (`TErr.fuel`); a fuel error
corresponds to a Go execution that never returns.  Go panics (nil
dereference, failed type assertion, index out of range) are modelled as
`TErr.nilPanic` or `Option.none`.
-/

namespace GT

/-! ### Parse-tree node model (`parse` package node variants used by inline.go) -/

mutual
inductive Node where
  | text (s : String)
  | actionN
  | tmpl (name : String)
  | listN (l : OptList)
  | ifN (l : OptList) (e : OptList)
  | rangeN (l : OptList) (e : OptList)
  | withN (l : OptList) (e : OptList)
  | blockN (name : String) (l : OptList)
  | fillN (name : String) (l : OptList)
inductive OptList where
  | none
  | some (l : NodeList)
inductive NodeList where
  | nil
  | cons (n : Node) (t : NodeList)
end

/-- A `DefineNode`: parent template name (empty means root) and body list.
`OptList.none` models a nil `*parse.ListNode` pointer. -/
structure DefineNode where
  parent : String
  list : OptList

/-- `parse.Tree`: map from template name to define, as an association list
in map-iteration order.  Go maps have unique keys; that is a hypothesis
(`keysNodup`) where a theorem needs it. -/
abbrev Tree := List (String × DefineNode)

def findTpl : Tree → String → Option DefineNode
  | [], _ => Option.none
  | (k, d) :: rest, name => if k = name then Option.some d else findTpl rest name

def updateTpl : Tree → String → DefineNode → Tree
  | [], _, _ => []
  | (k, d2) :: rest, name, d =>
    if k = name then (k, d) :: updateTpl rest name d
    else (k, d2) :: updateTpl rest name d

def keysOf (t : Tree) : List String := t.map Prod.fst

/-! ### parentList (inline.go) -/

inductive PLResult where
  | ok (parents : List String)
  | notFound (name : String)
  | recursion (chain : List String)
  | outOfFuel
deriving DecidableEq

/-- The loop of `parentList`: look the name up, fail if absent, fail with
the visited chain if the name was already visited, append it, stop at an
empty parent, otherwise continue with the parent. -/
def parentListLoop (t : Tree) : Nat → String → List String → PLResult
  | 0, _, _ => .outOfFuel
  | fuel+1, name, parents =>
    match findTpl t name with
    | Option.none => .notFound name
    | Option.some define =>
      if name ∈ parents then .recursion (parents ++ [name])
      else if define.parent = "" then .ok (parents ++ [name])
      else parentListLoop t fuel define.parent (parents ++ [name])

/-- `parentList(tree, name)`.  The fuel `t.length + 1` is provably never
exhausted (`parentList_no_fuel`). -/
def parentList (t : Tree) (name : String) : PLResult :=
  parentListLoop t (t.length + 1) name []

/-! ### compilationOrder (inline.go) -/

inductive TErr where
  | notFound (name : String)
  | recursion (chain : List String)
  | undefinedParent (name : String)
  | fuel
  | nilPanic
deriving DecidableEq

/-- First loop of `compilationOrder`: one `parentList` chain per template,
in map-iteration order, propagating the first error. -/
def collectChains (t : Tree) : List String → Except TErr (List (List String))
  | [] => Except.ok []
  | name :: rest =>
    match parentList t name with
    | .ok l =>
      match collectChains t rest with
      | Except.ok ls => Except.ok (l :: ls)
      | Except.error e => Except.error e
    | .notFound m => Except.error (.notFound m)
    | .recursion c => Except.error (.recursion c)
    | .outOfFuel => Except.error .fuel

/-- Removing a placed name from a dependency list (the inner `for k, v :=
range deps` rebuild). -/
def stripName (n : String) (l : List String) : List String :=
  l.filter (fun x => x ≠ n)

/-- One left-to-right pass of the inner `for i < len(deps)` loop: a list of
length exactly one places its name (appended to `acc`, i.e. written into
the next slot from the right of `order`), is removed, and the name is
stripped from every remaining list; any other list is skipped.  The fuel
equals the number of steps, `todo.length` at the start of the pass. -/
def scanPassAux : Nat → List (List String) → List (List String) → List String →
    (List (List String)) × List String
  | _, done, [], acc => (done, acc)
  | 0, done, l :: todo, acc => (done ++ l :: todo, acc)
  | f+1, done, [] :: rest, acc => scanPassAux f (done ++ [([] : List String)]) rest acc
  | f+1, done, [n] :: rest, acc =>
      scanPassAux f (done.map (stripName n)) (rest.map (stripName n)) (acc ++ [n])
  | f+1, done, (a :: b :: tl) :: rest, acc =>
      scanPassAux f (done ++ [a :: b :: tl]) rest acc

def scanPass (r : List (List String)) (acc : List String) :
    (List (List String)) × List String :=
  scanPassAux r.length [] r acc

/-- The outer `for len(deps) > 0` loop.  In Go a pass that places nothing
repeats forever; here the fuel runs out instead. -/
def orderLoop : Nat → List (List String) → List String → Option (List String)
  | _, [], acc => Option.some acc
  | 0, _ :: _, _ => Option.none
  | fuel+1, l :: r, acc =>
      match scanPass (l :: r) acc with
      | (r2, acc2) => orderLoop fuel r2 acc2

/-- `compilationOrder(tree)`.  Go writes placement `i` into
`order[len(deps)-1]`, filling the array from the right, so the final
array is the reverse of the placement sequence. -/
def compilationOrder (t : Tree) : Except TErr (List String) :=
  match collectChains t (keysOf t) with
  | Except.error e => Except.error e
  | Except.ok chains =>
    match orderLoop (t.length + 1) chains [] with
    | Option.some acc => Except.ok acc.reverse
    | Option.none => Except.error .fuel

/-! ### cleanupBlock (inline.go)

Go's loop replaces a block element by its `*ListNode` and `continue`s,
so the replaced element is immediately re-dispatched: its default branch
recurses into the embedded list and advances.  That re-dispatch is
unfolded here into the block equation; the `switch` on the element kind
is written as one equation per node variant.  A nil `*ListNode` returns
immediately (`OptList.none` case). -/

mutual
def cleanupOpt : OptList → OptList
  | .none => .none
  | .some l => .some (cleanupList l)
def cleanupList : NodeList → NodeList
  | .nil => .nil
  | .cons (.blockN _ l) rest => .cons (.listN (cleanupOpt l)) (cleanupList rest)
  | .cons (.fillN _ _) rest => cleanupList rest
  | .cons (.text s) rest => .cons (.text s) (cleanupList rest)
  | .cons .actionN rest => .cons .actionN (cleanupList rest)
  | .cons (.tmpl n) rest => .cons (.tmpl n) (cleanupList rest)
  | .cons (.listN l) rest => .cons (.listN (cleanupOpt l)) (cleanupList rest)
  | .cons (.ifN l e) rest => .cons (.ifN (cleanupOpt l) (cleanupOpt e)) (cleanupList rest)
  | .cons (.rangeN l e) rest => .cons (.rangeN (cleanupOpt l) (cleanupOpt e)) (cleanupList rest)
  | .cons (.withN l e) rest => .cons (.withN (cleanupOpt l) (cleanupOpt e)) (cleanupList rest)
end

/-! ### applyFillers (inline.go) -/

/-- The `fillers` map: block/fill name to the filler's body list.  Built
by the collection loop with later same-name fills overwriting earlier
ones, keyed in first-appearance order. -/
abbrev Fillers := List (String × OptList)

def upsertFiller : Fillers → String → OptList → Fillers
  | [], k, v => [(k, v)]
  | (k2, v2) :: rest, k, v =>
    if k2 = k then (k2, v) :: rest else (k2, v2) :: upsertFiller rest k v

/-- The `for _, n := range define.List.Nodes` collection loop: record every
top-level fill node. -/
def collectFillers : NodeList → Fillers → Fillers
  | .nil, m => m
  | .cons (.fillN name l) rest, m => collectFillers rest (upsertFiller m name l)
  | .cons _ rest, m => collectFillers rest m

def lookupFiller : Fillers → String → Option OptList
  | [], _ => Option.none
  | (k, v) :: rest, name => if k = name then Option.some v else lookupFiller rest name

/-- `unused[name] = false`: the `used` list collects names marked used. -/
def markUsed (used : List String) (name : String) : List String :=
  if name ∈ used then used else used ++ [name]

/-! `applyFillers`: a block with a matching filler becomes the filler's
list node (not marked used); a fill with a matching filler becomes a copy
of the filler and is marked used; unmatched blocks and fills are left in
place without recursing into them; every other element is recursed into.
The Go index loop does not revisit replaced elements.  A nil `*ListNode`
returns immediately. -/
mutual
def applyOpt (fillers : Fillers) : OptList → List String → OptList × List String
  | .none, used => (.none, used)
  | .some l, used =>
    match applyList fillers l used with
    | (l2, u2) => (.some l2, u2)
def applyList (fillers : Fillers) : NodeList → List String → NodeList × List String
  | .nil, used => (.nil, used)
  | .cons (.blockN name l) rest, used =>
    match lookupFiller fillers name with
    | Option.some fl =>
      match applyList fillers rest used with
      | (r2, u2) => (.cons (.listN fl) r2, u2)
    | Option.none =>
      match applyList fillers rest used with
      | (r2, u2) => (.cons (.blockN name l) r2, u2)
  | .cons (.fillN name l) rest, used =>
    match lookupFiller fillers name with
    | Option.some fl =>
      match applyList fillers rest (markUsed used name) with
      | (r2, u2) => (.cons (.fillN name fl) r2, u2)
    | Option.none =>
      match applyList fillers rest used with
      | (r2, u2) => (.cons (.fillN name l) r2, u2)
  | .cons (.ifN l e) rest, used =>
    match applyOpt fillers l used with
    | (l2, u2) =>
      match applyOpt fillers e u2 with
      | (e2, u3) =>
        match applyList fillers rest u3 with
        | (r2, u4) => (.cons (.ifN l2 e2) r2, u4)
  | .cons (.rangeN l e) rest, used =>
    match applyOpt fillers l used with
    | (l2, u2) =>
      match applyOpt fillers e u2 with
      | (e2, u3) =>
        match applyList fillers rest u3 with
        | (r2, u4) => (.cons (.rangeN l2 e2) r2, u4)
  | .cons (.withN l e) rest, used =>
    match applyOpt fillers l used with
    | (l2, u2) =>
      match applyOpt fillers e u2 with
      | (e2, u3) =>
        match applyList fillers rest u3 with
        | (r2, u4) => (.cons (.withN l2 e2) r2, u4)
  | .cons (.listN l) rest, used =>
    match applyOpt fillers l used with
    | (l2, u2) =>
      match applyList fillers rest u2 with
      | (r2, u3) => (.cons (.listN l2) r2, u3)
  | .cons (.text s) rest, used =>
    match applyList fillers rest used with
    | (r2, u2) => (.cons (.text s) r2, u2)
  | .cons .actionN rest, used =>
    match applyList fillers rest used with
    | (r2, u2) => (.cons .actionN r2, u2)
  | .cons (.tmpl n) rest, used =>
    match applyList fillers rest used with
    | (r2, u2) => (.cons (.tmpl n) r2, u2)
end

/-- The `for k, v := range unused` append loop.  Go iterates the map in
unspecified order; the model fixes first-appearance order of the fillers,
which is observationally equivalent because filler names are distinct. -/
def leftoverFills : Fillers → List String → NodeList
  | [], _ => .nil
  | (k, v) :: rest, used =>
    if k ∈ used then leftoverFills rest used
    else .cons (.fillN k v) (leftoverFills rest used)

def appendNL : NodeList → NodeList → NodeList
  | .nil, l2 => l2
  | .cons v rest, l2 => .cons v (appendNL rest l2)

/-- `define.List.Nodes = append(define.List.Nodes, ...)`: appending to a
nil list panics in Go unless nothing is appended. -/
def appendNodes : OptList → NodeList → Option OptList
  | OptList.some l, extra => Option.some (OptList.some (appendNL l extra))
  | OptList.none, .nil => Option.some OptList.none
  | OptList.none, .cons _ _ => Option.none

/-! ### inlineDefine / inlineTree (inline.go) -/

/-- `inlineDefine(tree, name)`: a parentless define gets its body
cleaned (`cleanupBlock`); otherwise the define's top-level fills are
collected, the body becomes a copy of the parent's body with fillers
applied, still-unused fillers are appended, the define is re-parented to
the parent's parent, and the function recurses until the parent is
empty.  The Go recursion terminates only by reaching an empty parent;
fuel exhaustion models divergence. -/
def inlineDefine (t : Tree) (name : String) : Nat → Except TErr Tree
  | 0 => Except.error .fuel
  | fuel+1 =>
    match findTpl t name with
    | Option.none => Except.error .nilPanic
    | Option.some define =>
      if define.parent = "" then
        Except.ok (updateTpl t name { define with list := cleanupOpt define.list })
      else
        match findTpl t define.parent with
        | Option.none => Except.error (.undefinedParent define.parent)
        | Option.some parent =>
          match define.list with
          | OptList.none => Except.error .nilPanic
          | OptList.some defNodes =>
            let fillers := collectFillers defNodes []
            match applyOpt fillers parent.list [] with
            | (newList, used) =>
              match appendNodes newList (leftoverFills fillers used) with
              | Option.none => Except.error .nilPanic
              | Option.some finalList =>
                inlineDefine
                  (updateTpl t name { parent := parent.parent, list := finalList })
                  name fuel

/-- The `for _, name := range order` loop of `inlineTree`. -/
def inlineDefines : Tree → List String → Except TErr Tree
  | t, [] => Except.ok t
  | t, name :: rest =>
    match inlineDefine t name (t.length + 1) with
    | Except.ok t2 => inlineDefines t2 rest
    | Except.error e => Except.error e

/-- `inlineTree(tree)`: compute the compilation order, then inline every
template in that order. -/
def inlineTree (t : Tree) : Except TErr Tree :=
  match compilationOrder t with
  | Except.error e => Except.error e
  | Except.ok order => inlineDefines t order

/-! ### Body predicates and text extraction -/

/-! No block and no fill node at any nesting depth. -/
mutual
def noBF : Node → Bool
  | .text _ => true
  | .actionN => true
  | .tmpl _ => true
  | .listN l => noBFO l
  | .ifN l e => noBFO l && noBFO e
  | .rangeN l e => noBFO l && noBFO e
  | .withN l e => noBFO l && noBFO e
  | .blockN _ _ => false
  | .fillN _ _ => false
def noBFO : OptList → Bool
  | .none => true
  | .some l => noBFL l
def noBFL : NodeList → Bool
  | .nil => true
  | .cons v rest => noBF v && noBFL rest
end

def listToNL : List Node → NodeList
  | [] => .nil
  | v :: rest => .cons v (listToNL rest)

def sl (l : List Node) : OptList := OptList.some (listToNL l)

/-! Concatenated literal text of a body, every branch included. -/
mutual
def textOfOpt : OptList → String
  | .none => ""
  | .some l => textOfList l
def textOfList : NodeList → String
  | .nil => ""
  | .cons (.text s) rest => s ++ textOfList rest
  | .cons .actionN rest => textOfList rest
  | .cons (.tmpl _) rest => textOfList rest
  | .cons (.listN l) rest => textOfOpt l ++ textOfList rest
  | .cons (.ifN l e) rest => textOfOpt l ++ textOfOpt e ++ textOfList rest
  | .cons (.rangeN l e) rest => textOfOpt l ++ textOfOpt e ++ textOfList rest
  | .cons (.withN l e) rest => textOfOpt l ++ textOfOpt e ++ textOfList rest
  | .cons (.blockN _ l) rest => textOfOpt l ++ textOfList rest
  | .cons (.fillN _ l) rest => textOfOpt l ++ textOfList rest
end

/-- Drop spaces, newlines and tabs, as the slot test does before
comparing rendered output. -/
def stripWS (s : String) : String :=
  String.mk (s.data.filter (fun c => !(c = ' ' || c = '\n' || c = '\t')))

def bodyText (t : Tree) (name : String) : Option String :=
  match findTpl t name with
  | Option.some d => Option.some (stripWS (textOfOpt d.list))
  | Option.none => Option.none

/-! ### Fixtures: the TestSlot five-level inheritance source, as parsed -/

def tpl1Body : OptList :=
  sl [.text "\n\t\tA\n\t\t",
      .blockN "header" (sl [.text "\n\t\t\t-h1-\n\t\t"]),
      .text "\n\t\tB\n\t\t",
      .blockN "footer" (sl [.text "\n\t\t\t-f1-\n\t\t"]),
      .text "\n\t\tC\n\t"]

def tpl3Body : OptList :=
  sl [.text "\n\t\txxx\n\t\t",
      .fillN "header" (sl [.text "\n\t\t\t-h3-\n\t\t"]),
      .text "\n\t\txxx\n\t"]

def tpl4Body : OptList :=
  sl [.text "\n\t\txxx\n\t\t",
      .fillN "header" (sl [.text "\n\t\t\t-h4-\n\t\t"]),
      .text "\n\t\txxx\n\t\t",
      .fillN "footer" (sl [.text "\n\t\t\t-f4-\n\t\t"]),
      .text "\n\t\txxx\n\t"]

def tpl5Body : OptList :=
  sl [.text "\n\t\txxx\n\t\t",
      .fillN "footer" (sl [.text "\n\t\t\t-f5-\n\t\t"]),
      .text "\n\t\txxx\n\t"]

def slotTree : Tree :=
  [ ("tpl1", { parent := "", list := tpl1Body }),
    ("tpl2", { parent := "tpl1", list := sl [.text "\n\t\txxx\n\t"] }),
    ("tpl3", { parent := "tpl2", list := tpl3Body }),
    ("tpl4", { parent := "tpl3", list := tpl4Body }),
    ("tpl5", { parent := "tpl4", list := tpl5Body }) ]

/-- The recursive-inheritance fixture of TestSlot: tpl1 extends tpl2
extends tpl3 extends tpl1. -/
def recTree : Tree :=
  [ ("tpl1", { parent := "tpl2", list := sl [.fillN "header" (sl [.text "-h1-"])] }),
    ("tpl2", { parent := "tpl3", list := sl [.fillN "header" (sl [.text "-h2-"])] }),
    ("tpl3", { parent := "tpl1", list := sl [.fillN "header" (sl [.text "-h3-"])] }) ]

/-- A two-template tree: `b` extends the root `a`. -/
def twoTree : Tree :=
  [ ("a", { parent := "", list := sl [] }),
    ("b", { parent := "a", list := sl [] }) ]

/-- A tree whose if, range and with nodes all have an absent (nil) else
branch. -/
def nilElseTree : Tree :=
  [ ("base", { parent := "",
               list := sl [.ifN (sl [.blockN "h" (sl [.text "x"])]) OptList.none,
                           .rangeN (sl [.text "y"]) OptList.none,
                           .withN (sl [.text "z"]) OptList.none] }),
    ("child", { parent := "base", list := sl [.fillN "h" (sl [.text "w"])] }) ]

def isOkTree : Except TErr Tree → Bool
  | Except.ok _ => true
  | Except.error _ => false

/-- The slot fixture after inlining (empty tree in the error case, which
does not occur). -/
def slotInlined : Tree :=
  match inlineTree slotTree with
  | Except.ok t2 => t2
  | Except.error _ => []

/-- The inlined tpl5 define of the slot fixture. -/
def slotTpl5 : DefineNode :=
  match findTpl slotInlined "tpl5" with
  | Option.some d => d
  | Option.none => { parent := "missing", list := OptList.none }

/-! ### Chain predicates (specification side, used to state C1/C3/C9) -/

def hasDefB (t : Tree) (x : String) : Bool := (findTpl t x).isSome

/-- The stored parent pointer of a template, when the template exists. -/
def parentOf (t : Tree) (x : String) : Option String :=
  (findTpl t x).map DefineNode.parent

/-- Each element's parent pointer names the next element. -/
def linkedB (t : Tree) : List String → Bool
  | [] => true
  | [_] => true
  | a :: b :: rest => (parentOf t a = Option.some b) && linkedB t (b :: rest)

/-- The final element of the list is a root (empty parent). -/
def rootEndB (t : Tree) : List String → Bool
  | [] => false
  | [a] => parentOf t a = Option.some ""
  | _ :: b :: rest => rootEndB t (b :: rest)

/-- `a` occurs at a strictly earlier position than `b` in `l`. -/
def Before (l : List String) (a b : String) : Prop :=
  ∃ i : Fin l.length, ∃ j : Fin l.length, i.val < j.val ∧ l.get i = a ∧ l.get j = b

instance (l : List String) (a b : String) : Decidable (Before l a b) := by
  unfold Before; infer_instance

/-- An inheritance edge: `child`'s define names the non-empty parent `p`. -/
def Edge (t : Tree) (child p : String) : Prop :=
  ∃ d, findTpl t child = Option.some d ∧ d.parent = p ∧ p ≠ ""

/-! ### Escaper pipeline model (`v0/escape/pipeline.go`)

`parse.PipeNode.Cmds` is a command list; a command's first argument is an
identifier node, a field node, or some other node kind (only the
distinction matters to `ensurePipelineContains`).  Failed type
assertions and out-of-range indexing — Go panics — are `Option.none`. -/

inductive ArgN where
  | ident (s : String)
  | field (s : String)
  | otherArg
deriving DecidableEq

structure CmdN where
  args : List ArgN
deriving DecidableEq

structure PipeN where
  cmds : List CmdN
deriving DecidableEq

/-- `equivEscapers` from pipeline.go: contextual escaper to the
equivalent template builtin. -/
def equivEscapers : String → Option String
  | "html_template_attrescaper" => Option.some "html"
  | "html_template_htmlescaper" => Option.some "html"
  | "html_template_nospaceescaper" => Option.some "html"
  | "html_template_rcdataescaper" => Option.some "html"
  | "html_template_urlescaper" => Option.some "urlquery"
  | "html_template_urlnormalizer" => Option.some "urlquery"
  | _ => Option.none

/-- `redundantFuncs[a][b]`: applying `b` after `a` is a no-op. -/
def redundantFuncs (a b : String) : Bool :=
  match a, b with
  | "html_template_commentescaper", "html_template_attrescaper" => true
  | "html_template_commentescaper", "html_template_nospaceescaper" => true
  | "html_template_commentescaper", "html_template_htmlescaper" => true
  | "html_template_cssescaper", "html_template_attrescaper" => true
  | "html_template_jsregexpescaper", "html_template_attrescaper" => true
  | "html_template_jsstrescaper", "html_template_attrescaper" => true
  | "html_template_urlescaper", "html_template_urlnormalizer" => true
  | _, _ => false

/-- `escFnsEq`: equality after mapping both names through
`equivEscapers` (a missing entry, Go's empty string, keeps the name). -/
def escFnsEq (a b : String) : Bool :=
  ((equivEscapers a).getD a) = ((equivEscapers b).getD b)

/-- `indexOfStr` specialised to `escFnsEq`; Go's -1 is `Option.none`. -/
def indexOfStr (s : String) : List String → Option Nat
  | [] => Option.none
  | t :: rest =>
    if escFnsEq s t then Option.some 0
    else match indexOfStr s rest with
         | Option.some i => Option.some (i + 1)
         | Option.none => Option.none

def newIdentCmd (identifier : String) : CmdN := { args := [ArgN.ident identifier] }

/-- `appendCmd`: append unless the command is redundant after the last
one.  Go reads `cmds[n-1].Args[0]` and `cmd.Args[0]` first (panics on an
empty argument list) and dereferences the next identifier even when the
assertion failed (panics when the last command is an identifier and the
new one is not). -/
def appendCmd (cmds : List CmdN) (cmd : CmdN) : Option (List CmdN) :=
  match cmds.getLast? with
  | Option.none => Option.some (cmds ++ [cmd])
  | Option.some last =>
    match last.args.head?, cmd.args.head? with
    | Option.none, _ => Option.none
    | _, Option.none => Option.none
    | Option.some (ArgN.ident ln), Option.some (ArgN.ident nn) =>
      if redundantFuncs ln nn then Option.some cmds else Option.some (cmds ++ [cmd])
    | Option.some (ArgN.ident _), Option.some _ => Option.none
    | Option.some _, Option.some _ => Option.some (cmds ++ [cmd])

/-- The backward scan `for i := n - 1; i >= 0; i--` of
`ensurePipelineContains`: an identifier command named `noescape` returns
immediately (`Option.none` signals the unchanged early return), any
other identifier command is skipped, and every non-identifier (or
argument-less) command resets `idents` to the suffix after it.  The scan
visits every index; the last reset, at the lowest such index, wins. -/
def scanLoop (cmds : List CmdN) : Nat → List CmdN → Option (List CmdN)
  | 0, idents => Option.some idents
  | i+1, idents =>
    match cmds.get? i with
    | Option.none => Option.some idents
    | Option.some cmd =>
      match cmd.args.head? with
      | Option.some (ArgN.ident id) =>
        if id = "noescape" then Option.none else scanLoop cmds i idents
      | _ => scanLoop cmds i (cmds.drop (i+1))

/-- The `dups` loop: greedily match `s` against the identifier suffix;
reaching `len(s)` returns the pipeline unchanged (`some true`).  A
non-identifier in `idents` is a failed type assertion (`none`). -/
def dupsLoop (s : List String) : List CmdN → Nat → Option Bool
  | [], _ => Option.some false
  | id :: rest, dups =>
    match id.args.head? with
    | Option.some (ArgN.ident nm) =>
      if escFnsEq (s.getD dups "") nm then
        if dups + 1 = s.length then Option.some true else dupsLoop s rest (dups + 1)
      else dupsLoop s rest dups
    | _ => Option.none

/-- Append the named sanitizers through `appendCmd`. -/
def appendMissing : List CmdN → List String → Option (List CmdN)
  | cmds, [] => Option.some cmds
  | cmds, n :: rest =>
    match appendCmd cmds (newIdentCmd n) with
    | Option.some c2 => appendMissing c2 rest
    | Option.none => Option.none

/-- The merge loop: for each identifier command, the first `escFnsEq`
match in the remaining `s` (if any) first inserts the names before it,
then the command itself is appended and `s` advances past the match. -/
def mergeCmds : List CmdN → List String → List CmdN → Option (List CmdN × List String)
  | [], s, acc => Option.some (acc, s)
  | id :: rest, s, acc =>
    match id.args.head? with
    | Option.some (ArgN.ident nm) =>
      match indexOfStr nm s with
      | Option.some i =>
        match appendMissing acc (s.take i) with
        | Option.some acc2 =>
          match appendCmd acc2 id with
          | Option.some acc3 => mergeCmds rest (s.drop (i + 1)) acc3
          | Option.none => Option.none
        | Option.none => Option.none
      | Option.none =>
        match appendCmd acc id with
        | Option.some acc2 => mergeCmds rest s acc2
        | Option.none => Option.none
    | _ => Option.none

/-- `ensurePipelineContains(p, s)`: empty `s` is a no-op; the backward
scan either returns unchanged (noescape) or yields the identifier
suffix; a complete greedy match of `s` returns unchanged; otherwise the
prefix before the identifier suffix is kept and the suffix is merged
with the missing sanitizers. -/
def ensurePipelineContains (p : PipeN) (s : List String) : Option PipeN :=
  if s.length = 0 then Option.some p
  else
    match scanLoop p.cmds p.cmds.length p.cmds with
    | Option.none => Option.some p
    | Option.some idents =>
      match dupsLoop s idents 0 with
      | Option.none => Option.none
      | Option.some true => Option.some p
      | Option.some false =>
        match mergeCmds idents s (p.cmds.take (p.cmds.length - idents.length)) with
        | Option.none => Option.none
        | Option.some (acc, sRem) =>
          match appendMissing acc sRem with
          | Option.none => Option.none
          | Option.some final => Option.some { cmds := final }

/-- Leading identifier of a command, when it has one. -/
def leadIdent (c : CmdN) : Option String :=
  match c.args.head? with
  | Option.some (ArgN.ident s) => Option.some s
  | _ => Option.none

def isIdentCmd (c : CmdN) : Bool := (leadIdent c).isSome

def hasNoescape (cmds : List CmdN) : Bool :=
  cmds.any (fun c => leadIdent c = Option.some "noescape")

/-- Least index below `i` holding a non-identifier (or argument-less)
command. -/
def leastNonIdentBelow (cmds : List CmdN) : Nat → Option Nat
  | 0 => Option.none
  | i+1 =>
    match leastNonIdentBelow cmds i with
    | Option.some j => Option.some j
    | Option.none =>
      match cmds.get? i with
      | Option.some c => if isIdentCmd c then Option.none else Option.some i
      | Option.none => Option.none

/-- The identifier segment the merge acts on: the suffix after the
lowest-indexed non-identifier command (the whole list when every command
is an identifier). -/
def mergeSegment (cmds : List CmdN) : List CmdN :=
  match leastNonIdentBelow cmds cmds.length with
  | Option.some j => cmds.drop (j + 1)
  | Option.none => cmds

/-- The trailing run of identifier commands (maximal identifier suffix),
the segment named by the specification. -/
def trailingIdentRun (cmds : List CmdN) : List CmdN :=
  (cmds.reverse.takeWhile isIdentCmd).reverse

/-- Pipeline fixtures: `.X` followed by identifier commands. -/
def fieldCmdX : CmdN := { args := [ArgN.field "X"] }

def pipeOf (names : List String) : PipeN := { cmds := fieldCmdX :: names.map newIdentCmd }

/-- C6 fixture: `.X | html`. -/
def pipeHtml : PipeN := pipeOf ["html"]

/-- C6 fixture: `.X | html | urlquery`. -/
def pipeHtmlUrlquery : PipeN := pipeOf ["html", "urlquery"]

/-- C4 failing input: the pipeline `.X`. -/
def pipeXOnly : PipeN := pipeOf []

/-- C4 failing required list. -/
def reqCssAttrHtml : List String :=
  ["html_template_cssescaper", "html_template_attrescaper", "html"]

/-! ### Spec-modelled contextual escaping fragment (claim C8)

Modelled from the spec: the grammar-context scanner and the context
propagation driver (§4.1, §4.3) are not among the provided source files
(only their tests are), so the HTML-level states needed for branch
comparison are modelled from the spec's words: plain text, inside a tag,
attribute name, after-name, before-value, attribute value with quote
delimiter, and the URL/plain attribute classification by attribute name
(`href`, `src`, `action`, or a name containing `url`/`uri`).  JS/CSS
sub-grammars, raw-text elements and comments are outside the modelled
fragment. -/

inductive HState where
  | hText
  | hElem
  | hTag
  | hAttrName
  | hAfterName
  | hBeforeValue
  | hAttr
deriving DecidableEq

inductive Delim where
  | dNone
  | dSingleQuote
  | dDoubleQuote
  | dSpaceOrTagEnd
deriving DecidableEq

inductive AttrClass where
  | acNone
  | acPlain
  | acURL
deriving DecidableEq

structure Context where
  state : HState
  delim : Delim
  attr : AttrClass
deriving DecidableEq

def textContext : Context := { state := .hText, delim := .dNone, attr := .acNone }

def singleQuoteChar : Char := Char.ofNat 39

def isSpaceChar (c : Char) : Bool := c = ' ' || c = '\n' || c = '\t' || c = '\r'

def leadsChars : List Char → List Char → Bool
  | [], _ => true
  | _ :: _, [] => false
  | a :: as, b :: bs => (a = b) && leadsChars as bs

def subOccurs (sub : List Char) : List Char → Bool
  | [] => leadsChars sub []
  | c :: rest => leadsChars sub (c :: rest) || subOccurs sub rest

def containsSub (s sub : String) : Bool := subOccurs sub.toList s.toList

def lowerChar (c : Char) : Char :=
  if 'A' ≤ c && c ≤ 'Z' then Char.ofNat (c.toNat + 32) else c

def lowerStr (s : String) : String := String.mk (s.data.map lowerChar)

/-- Modelled from the spec: URL-bearing attribute names (§4.1). -/
def classifyAttr (name : String) : AttrClass :=
  let n := lowerStr name
  if n = "href" || n = "src" || n = "action" || containsSub n "url" || containsSub n "uri" then
    .acURL
  else .acPlain

/-- Modelled from the spec: one character of the HTML grammar scanner,
carrying the partially read attribute name. -/
def scanChar (ctx : Context) (buf : String) (c : Char) : Context × String :=
  match ctx.state with
  | .hText => if c = '<' then ({ ctx with state := .hElem }, "") else (ctx, buf)
  | .hElem =>
    if isSpaceChar c then ({ ctx with state := .hTag }, "")
    else if c = '>' then (textContext, "")
    else (ctx, buf)
  | .hTag =>
    if isSpaceChar c then (ctx, buf)
    else if c = '>' then (textContext, "")
    else ({ ctx with state := .hAttrName }, String.singleton c)
  | .hAttrName =>
    if c = '=' then ({ ctx with state := .hBeforeValue, attr := classifyAttr buf }, "")
    else if isSpaceChar c then ({ ctx with state := .hAfterName, attr := classifyAttr buf }, buf)
    else if c = '>' then (textContext, "")
    else (ctx, buf.push c)
  | .hAfterName =>
    if c = '=' then ({ ctx with state := .hBeforeValue }, "")
    else if isSpaceChar c then (ctx, buf)
    else if c = '>' then (textContext, "")
    else ({ ctx with state := .hAttrName, attr := .acNone }, String.singleton c)
  | .hBeforeValue =>
    if c = singleQuoteChar then ({ ctx with state := .hAttr, delim := .dSingleQuote }, "")
    else if c = '"' then ({ ctx with state := .hAttr, delim := .dDoubleQuote }, "")
    else if isSpaceChar c then (ctx, buf)
    else if c = '>' then (textContext, "")
    else ({ ctx with state := .hAttr, delim := .dSpaceOrTagEnd }, "")
  | .hAttr =>
    match ctx.delim with
    | .dSingleQuote =>
      if c = singleQuoteChar then ({ state := .hTag, delim := .dNone, attr := .acNone }, "")
      else (ctx, buf)
    | .dDoubleQuote =>
      if c = '"' then ({ state := .hTag, delim := .dNone, attr := .acNone }, "") else (ctx, buf)
    | _ =>
      if isSpaceChar c then ({ state := .hTag, delim := .dNone, attr := .acNone }, "")
      else if c = '>' then (textContext, "")
      else (ctx, buf)

def scanChars : Context → String → List Char → Context × String
  | ctx, buf, [] => (ctx, buf)
  | ctx, buf, c :: rest =>
    match scanChar ctx buf c with
    | (ctx2, buf2) => scanChars ctx2 buf2 rest

/-- Modelled from the spec: scanning a literal text run (the partial
attribute-name buffer is local to the run in this fragment). -/
def scanText (ctx : Context) (s : String) : Context :=
  (scanChars ctx "" s.data).1

inductive EscErr where
  | branchErr (construct : String)
  | rangeReentry
  | unsupportedNode
deriving DecidableEq

/-! Modelled from the spec: the branch rule of the context propagation
driver (§4.3).  Both branches of if/with are scanned from the entry
context and must agree structurally; an absent branch ends in the entry
context; range re-scans its body from the body's exit context and
requires a fixed point, and its else branch must match it.  Template
calls, blocks and fills are outside the modelled fragment. -/
mutual
def escOpt (c : Context) : OptList → Except EscErr Context
  | OptList.none => Except.ok c
  | OptList.some l => escList c l
def escList (c : Context) : NodeList → Except EscErr Context
  | .nil => Except.ok c
  | .cons (.text s) rest => escList (scanText c s) rest
  | .cons .actionN rest => escList c rest
  | .cons (.listN l) rest =>
    match escOpt c l with
    | Except.ok c2 => escList c2 rest
    | Except.error e => Except.error e
  | .cons (.ifN l e) rest =>
    match escOpt c l, escOpt c e with
    | Except.ok a, Except.ok b =>
      if a = b then escList a rest else Except.error (.branchErr "if")
    | Except.error err, _ => Except.error err
    | _, Except.error err => Except.error err
  | .cons (.withN l e) rest =>
    match escOpt c l, escOpt c e with
    | Except.ok a, Except.ok b =>
      if a = b then escList a rest else Except.error (.branchErr "with")
    | Except.error err, _ => Except.error err
    | _, Except.error err => Except.error err
  | .cons (.rangeN l e) rest =>
    match escOpt c l with
    | Except.ok c1 =>
      match escOpt c1 l with
      | Except.ok c2 =>
        if c2 = c1 then
          match escOpt c e with
          | Except.ok c3 =>
            if c3 = c1 then escList c1 rest else Except.error .rangeReentry
          | Except.error err => Except.error err
        else Except.error .rangeReentry
      | Except.error err => Except.error err
    | Except.error err => Except.error err
  | .cons (.tmpl _) _ => Except.error .unsupportedNode
  | .cons (.blockN _ _) _ => Except.error .unsupportedNode
  | .cons (.fillN _ _) _ => Except.error .unsupportedNode
end

/-- The branch-divergence example body:
the if branch emits an anchor with an open href value, the else branch
emits plain text, then a substitution and closing text follow. -/
def c8Body : NodeList :=
  listToNL [.ifN (sl [.text "<a href='"]) (sl [.text "title='"]),
            .actionN, .text "'>"]

/-! ## Helper lemmas -/

theorem findTpl_mem_keys {t : Tree} {x : String} {d : DefineNode}
    (h : findTpl t x = Option.some d) : x ∈ keysOf t := by
  induction t with
  | nil => simp [findTpl] at h
  | cons kv rest ih =>
    obtain ⟨k, dd⟩ := kv
    by_cases hk : k = x
    · subst hk; simp [keysOf]
    · simp only [findTpl, if_neg hk] at h
      simpa [keysOf] using Or.inr (by simpa [keysOf] using ih h)

theorem findTpl_isSome_of_mem {t : Tree} {x : String} (h : x ∈ keysOf t) :
    ∃ d, findTpl t x = Option.some d := by
  induction t with
  | nil => simp [keysOf] at h
  | cons kv rest ih =>
    obtain ⟨k, dd⟩ := kv
    by_cases hk : k = x
    · exact ⟨dd, by simp [findTpl, hk]⟩
    · have hx : x ∈ keysOf rest := by
        have h1 : x = k ∨ x ∈ keysOf rest := by simpa [keysOf] using h
        rcases h1 with h1 | h1
        · exact absurd h1.symm hk
        · exact h1
      obtain ⟨d, hd⟩ := ih hx
      exact ⟨d, by simpa [findTpl, hk] using hd⟩

theorem findTpl_update_self {t : Tree} {n : String} {d0 d : DefineNode}
    (h : findTpl t n = Option.some d0) :
    findTpl (updateTpl t n d) n = Option.some d := by
  induction t with
  | nil => simp [findTpl] at h
  | cons kv rest ih =>
    obtain ⟨k2, d2⟩ := kv
    by_cases h2 : k2 = n
    · simp [findTpl, updateTpl, h2]
    · simp only [findTpl, if_neg h2] at h
      simp [findTpl, updateTpl, h2, ih h]

theorem findTpl_update_other {t : Tree} {n k : String} {d : DefineNode} (hk : k ≠ n) :
    findTpl (updateTpl t n d) k = findTpl t k := by
  induction t with
  | nil => rfl
  | cons kv rest ih =>
    obtain ⟨k2, d2⟩ := kv
    by_cases h2 : k2 = n
    · have h3 : ¬ (k2 = k) := by
        intro hh
        exact hk (hh ▸ h2)
      have h4 : ¬ (n = k) := fun hh => hk hh.symm
      simp [findTpl, updateTpl, h2, h3, h4, ih]
    · by_cases h3 : k2 = k
      · have h4 : ¬ (k = n) := h3 ▸ h2
        simp [findTpl, updateTpl, h2, h3, h4]
      · simp [findTpl, updateTpl, h2, h3, ih]

theorem updateTpl_length {t : Tree} {n : String} {d : DefineNode} :
    (updateTpl t n d).length = t.length := by
  induction t with
  | nil => rfl
  | cons kv rest ih =>
    obtain ⟨k2, d2⟩ := kv
    by_cases h2 : k2 = n <;> simp [updateTpl, h2, ih]

theorem keysOf_update {t : Tree} {n : String} {d : DefineNode} :
    keysOf (updateTpl t n d) = keysOf t := by
  induction t with
  | nil => rfl
  | cons kv rest ih =>
    obtain ⟨k2, d2⟩ := kv
    have ih2 : List.map Prod.fst (updateTpl rest n d) = List.map Prod.fst rest := by
      simpa [keysOf] using ih
    by_cases h2 : k2 = n <;> simp [updateTpl, h2, keysOf, ih2]

theorem nodup_subset_length {l keys : List String} (hn : l.Nodup) (hs : ∀ x ∈ l, x ∈ keys) :
    l.length ≤ keys.length :=
  (hn.subperm hs).length_le

/-! ### Before -/

theorem before_append_right {l l2 : List String} {a b : String} (h : Before l a b) :
    Before (l ++ l2) a b := by
  obtain ⟨i, j, hij, ha, hb⟩ := h
  have hi : i.val < (l ++ l2).length := by simp; omega
  have hj : j.val < (l ++ l2).length := by simp; omega
  refine ⟨⟨i.val, hi⟩, ⟨j.val, hj⟩, hij, ?_, ?_⟩
  · simpa [List.get_eq_getElem, List.getElem_append_left i.isLt] using ha
  · simpa [List.get_eq_getElem, List.getElem_append_left j.isLt] using hb

theorem before_append_new {l : List String} {a b : String} (h : a ∈ l) :
    Before (l ++ [b]) a b := by
  obtain ⟨i, hi⟩ := List.mem_iff_get.mp h
  have hib : i.val < (l ++ [b]).length := by simp; omega
  have hjb : l.length < (l ++ [b]).length := by simp
  refine ⟨⟨i.val, hib⟩, ⟨l.length, hjb⟩, i.isLt, ?_, ?_⟩
  · simpa [List.get_eq_getElem, List.getElem_append_left i.isLt] using hi
  · simp [List.get_eq_getElem]

theorem before_reverse {l : List String} {a b : String} (h : Before l a b) :
    Before l.reverse b a := by
  obtain ⟨i, j, hij, ha, hb⟩ := h
  have hi : l.length - 1 - j.val < l.reverse.length := by
    have := j.isLt; simp; omega
  have hj : l.length - 1 - i.val < l.reverse.length := by
    have := i.isLt; simp; omega
  refine ⟨⟨l.length - 1 - j.val, hi⟩, ⟨l.length - 1 - i.val, hj⟩, ?_, ?_, ?_⟩
  · show l.length - 1 - j.val < l.length - 1 - i.val
    have := i.isLt; have := j.isLt; omega
  · have h2 : l.length - 1 - (l.length - 1 - j.val) = j.val := by
      have := j.isLt; omega
    simpa [List.get_eq_getElem, List.getElem_reverse, h2] using hb
  · have h2 : l.length - 1 - (l.length - 1 - i.val) = i.val := by
      have := i.isLt; omega
    simpa [List.get_eq_getElem, List.getElem_reverse, h2] using ha

theorem before_mem_right {l : List String} {a b : String} (h : Before l a b) : b ∈ l := by
  obtain ⟨_, j, _, _, hb⟩ := h
  exact hb ▸ List.get_mem l j.val j.isLt

theorem before_mem_left {l : List String} {a b : String} (h : Before l a b) : a ∈ l := by
  obtain ⟨i, _, _, ha, _⟩ := h
  exact ha ▸ List.get_mem l i.val i.isLt

/-! ### parentList lemmas -/

theorem linkedB_snoc {t : Tree} {a b : String} (hab : parentOf t a = Option.some b) :
    ∀ xs : List String, linkedB t (xs ++ [a]) = true → linkedB t (xs ++ [a, b]) = true := by
  intro xs
  induction xs with
  | nil =>
    intro _
    simp [linkedB, hab]
  | cons c xs2 ih =>
    intro h
    cases xs2 with
    | nil =>
      simp only [List.cons_append, List.nil_append, linkedB, Bool.and_eq_true] at h ⊢
      exact ⟨h.1, by simp [linkedB, hab]⟩
    | cons e xs3 =>
      simp only [List.cons_append, linkedB, Bool.and_eq_true] at h ⊢
      exact ⟨h.1, ih h.2⟩

theorem plLoop_ok_shape {t : Tree} : ∀ fuel name acc l,
    parentListLoop t fuel name acc = .ok l →
    ∃ m, l = acc ++ m ∧ m.head? = Option.some name ∧ m.Nodup ∧
      (∀ x ∈ m, x ∉ acc) ∧ (∀ x ∈ m, hasDefB t x = true) ∧
      linkedB t m = true ∧ rootEndB t m = true := by
  intro fuel
  induction fuel with
  | zero =>
    intro name acc l h
    simp [parentListLoop] at h
  | succ f ih =>
    intro name acc l h
    simp only [parentListLoop] at h
    split at h
    · simp at h
    · rename_i define hf
      by_cases hmem : name ∈ acc
      · rw [if_pos hmem] at h; simp at h
      · rw [if_neg hmem] at h
        by_cases hroot : define.parent = ""
        · rw [if_pos hroot] at h
          have hl : l = acc ++ [name] := by cases h; rfl
          refine ⟨[name], hl, rfl, by simp, ?_, ?_, rfl, ?_⟩
          · intro x hx
            simp only [List.mem_singleton] at hx
            subst hx; exact hmem
          · intro x hx
            simp only [List.mem_singleton] at hx
            subst hx; simp [hasDefB, hf]
          · simp [rootEndB, parentOf, hf, hroot]
        · rw [if_neg hroot] at h
          obtain ⟨m2, hl2, hh2, hnd2, hfr2, hdef2, hlink2, hroot2⟩ :=
            ih define.parent (acc ++ [name]) l h
          refine ⟨name :: m2, ?_, rfl, ?_, ?_, ?_, ?_, ?_⟩
          · rw [hl2]; simp
          · refine List.nodup_cons.mpr ⟨?_, hnd2⟩
            intro hmm
            exact (hfr2 name hmm) (by simp)
          · intro x hx
            rcases List.mem_cons.mp hx with rfl | hx2
            · exact hmem
            · intro hxa
              exact (hfr2 x hx2) (by simp [hxa])
          · intro x hx
            rcases List.mem_cons.mp hx with rfl | hx2
            · simp [hasDefB, hf]
            · exact hdef2 x hx2
          · cases m2 with
            | nil => simp at hh2
            | cons p m3 =>
              have hp : p = define.parent := by simpa using hh2
              subst hp
              simp only [linkedB, Bool.and_eq_true]
              exact ⟨by simp [parentOf, hf], hlink2⟩
          · cases m2 with
            | nil => simp at hh2
            | cons p m3 => simpa [rootEndB] using hroot2

theorem plLoop_no_fuel {t : Tree} : ∀ fuel acc name,
    acc.Nodup → (∀ x ∈ acc, x ∈ keysOf t) → t.length < fuel + acc.length →
    parentListLoop t fuel name acc ≠ .outOfFuel := by
  intro fuel
  induction fuel with
  | zero =>
    intro acc name hnd hsub hlen
    have h1 : acc.length ≤ (keysOf t).length := nodup_subset_length hnd hsub
    have h2 : (keysOf t).length = t.length := by simp [keysOf]
    intro _
    omega
  | succ f ih =>
    intro acc name hnd hsub hlen
    simp only [parentListLoop]
    split
    · simp
    · rename_i define hf
      by_cases hmem : name ∈ acc
      · simp [hmem]
      · rw [if_neg hmem]
        by_cases hroot : define.parent = ""
        · simp [hroot]
        · rw [if_neg hroot]
          apply ih
          · simp [List.nodup_append, hnd, hmem]
          · intro x hx
            rcases List.mem_append.mp hx with hx2 | hx2
            · exact hsub x hx2
            · simp only [List.mem_singleton] at hx2
              subst hx2
              exact findTpl_mem_keys hf
          · simp only [List.length_append, List.length_singleton]
            omega

theorem plLoop_mono {t : Tree} : ∀ fuel fuel2 name acc l, fuel ≤ fuel2 →
    parentListLoop t fuel name acc = .ok l →
    parentListLoop t fuel2 name acc = .ok l := by
  intro fuel
  induction fuel with
  | zero =>
    intro f2 name acc l _ h
    simp [parentListLoop] at h
  | succ f ih =>
    intro f2 name acc l hle h
    obtain ⟨f2p, rfl⟩ : ∃ k, f2 = k + 1 := ⟨f2 - 1, by omega⟩
    simp only [parentListLoop] at h ⊢
    split at h
    · simp at h
    · rename_i define hf
      by_cases hmem : name ∈ acc
      · rw [if_pos hmem] at h ⊢; exact h
      · rw [if_neg hmem] at h ⊢
        by_cases hroot : define.parent = ""
        · rw [if_pos hroot] at h ⊢; exact h
        · rw [if_neg hroot] at h ⊢
          exact ih f2p _ _ _ (by omega) h

theorem plLoop_nf_shape {t : Tree} : ∀ fuel name acc mm,
    linkedB t (acc ++ [name]) = true → acc.Nodup → (∀ x ∈ acc, hasDefB t x = true) →
    parentListLoop t fuel name acc = .notFound mm →
    ∃ m, (m ++ [mm]).head? = Option.some name ∧
      linkedB t ((acc ++ m) ++ [mm]) = true ∧
      (acc ++ m).Nodup ∧ (∀ x ∈ acc ++ m, hasDefB t x = true) ∧
      findTpl t mm = Option.none := by
  intro fuel
  induction fuel with
  | zero =>
    intro name acc mm _ _ _ h
    simp [parentListLoop] at h
  | succ f ih =>
    intro name acc mm hlink hnd hpres h
    simp only [parentListLoop] at h
    split at h
    · rename_i hf
      have hm : mm = name := by cases h; rfl
      subst hm
      refine ⟨[], by simp, by simpa using hlink, by simpa using hnd, by simpa using hpres, hf⟩
    · rename_i define hf
      by_cases hmem : name ∈ acc
      · rw [if_pos hmem] at h; simp at h
      · rw [if_neg hmem] at h
        by_cases hroot : define.parent = ""
        · rw [if_pos hroot] at h; simp at h
        · rw [if_neg hroot] at h
          have hlink2 : linkedB t ((acc ++ [name]) ++ [define.parent]) = true := by
            have h0 := @linkedB_snoc t name define.parent
              (by simp [parentOf, hf]) acc hlink
            simpa using h0
          have hnd2 : (acc ++ [name]).Nodup := by
            simp [List.nodup_append, hnd, hmem]
          have hpres2 : ∀ x ∈ acc ++ [name], hasDefB t x = true := by
            intro x hx
            rcases List.mem_append.mp hx with hx2 | hx2
            · exact hpres x hx2
            · simp only [List.mem_singleton] at hx2
              subst hx2; simp [hasDefB, hf]
          obtain ⟨m2, hh, hlk, hnd3, hpres3, hmm⟩ :=
            ih define.parent (acc ++ [name]) mm hlink2 hnd2 hpres2 h
          refine ⟨name :: m2, rfl, ?_, ?_, ?_, hmm⟩
          · have he : (acc ++ name :: m2) ++ [mm] = ((acc ++ [name]) ++ m2) ++ [mm] := by simp
            rw [he]; exact hlk
          · have he : acc ++ name :: m2 = (acc ++ [name]) ++ m2 := by simp
            rw [he]; exact hnd3
          · intro x hx
            apply hpres3
            have he : acc ++ name :: m2 = (acc ++ [name]) ++ m2 := by simp
            rw [he] at hx; exact hx

theorem plLoop_rec_shape {t : Tree} : ∀ fuel name acc c,
    linkedB t (acc ++ [name]) = true → acc.Nodup → (∀ x ∈ acc, hasDefB t x = true) →
    parentListLoop t fuel name acc = .recursion c →
    ∃ m x, c = (acc ++ m) ++ [x] ∧ (m ++ [x]).head? = Option.some name ∧
      linkedB t ((acc ++ m) ++ [x]) = true ∧
      (acc ++ m).Nodup ∧ (∀ y ∈ acc ++ m, hasDefB t y = true) ∧ x ∈ acc ++ m := by
  intro fuel
  induction fuel with
  | zero =>
    intro name acc c _ _ _ h
    simp [parentListLoop] at h
  | succ f ih =>
    intro name acc c hlink hnd hpres h
    simp only [parentListLoop] at h
    split at h
    · simp at h
    · rename_i define hf
      by_cases hmem : name ∈ acc
      · rw [if_pos hmem] at h
        have hc : c = acc ++ [name] := by cases h; rfl
        subst hc
        refine ⟨[], name, by simp, by simp, by simpa using hlink, by simpa using hnd,
          by simpa using hpres, by simpa using hmem⟩
      · rw [if_neg hmem] at h
        by_cases hroot : define.parent = ""
        · rw [if_pos hroot] at h; simp at h
        · rw [if_neg hroot] at h
          have hlink2 : linkedB t ((acc ++ [name]) ++ [define.parent]) = true := by
            have h0 := @linkedB_snoc t name define.parent
              (by simp [parentOf, hf]) acc hlink
            simpa using h0
          have hnd2 : (acc ++ [name]).Nodup := by
            simp [List.nodup_append, hnd, hmem]
          have hpres2 : ∀ x ∈ acc ++ [name], hasDefB t x = true := by
            intro x hx
            rcases List.mem_append.mp hx with hx2 | hx2
            · exact hpres x hx2
            · simp only [List.mem_singleton] at hx2
              subst hx2; simp [hasDefB, hf]
          obtain ⟨m2, x, hc, hh, hlk, hnd3, hpres3, hx⟩ :=
            ih define.parent (acc ++ [name]) c hlink2 hnd2 hpres2 h
          refine ⟨name :: m2, x, ?_, rfl, ?_, ?_, ?_, ?_⟩
          · rw [hc]; simp
          · have he : (acc ++ name :: m2) ++ [x] = ((acc ++ [name]) ++ m2) ++ [x] := by simp
            rw [he]; exact hlk
          · have he : acc ++ name :: m2 = (acc ++ [name]) ++ m2 := by simp
            rw [he]; exact hnd3
          · intro y hy
            apply hpres3
            have he : acc ++ name :: m2 = (acc ++ [name]) ++ m2 := by simp
            rw [he] at hy; exact hy
          · have he : acc ++ name :: m2 = (acc ++ [name]) ++ m2 := by simp
            rw [he]; exact hx

theorem parentList_no_fuel (t : Tree) (name : String) :
    parentList t name ≠ .outOfFuel := by
  apply plLoop_no_fuel
  · exact List.nodup_nil
  · intro x hx; simp at hx
  · simp

/-- C3: for every finite tree and starting name, `parentList` terminates
— its fuel is provably never exhausted, even when the parent pointers
form a cycle of any length — and classifies the walk: an `ok` result is
the chain from the start in order, all visited names present, linked
parent to parent, none recurring, ending at a root (empty parent); a
`notFound` failure names an absent template reached by a linked walk of
present, non-recurring names; a `recursion` failure reports a linked
walk of present, non-recurring names extended with a repeat of one of
them. -/
theorem c3_parentList_trichotomy (t : Tree) (name : String) :
    parentList t name ≠ PLResult.outOfFuel
    ∧ (∀ l, parentList t name = .ok l →
        l.head? = Option.some name ∧ l.Nodup ∧ (∀ x ∈ l, hasDefB t x = true) ∧
        linkedB t l = true ∧ rootEndB t l = true)
    ∧ (∀ mm, parentList t name = .notFound mm →
        findTpl t mm = Option.none ∧
        ∃ m, (m ++ [mm]).head? = Option.some name ∧ linkedB t (m ++ [mm]) = true ∧
          m.Nodup ∧ (∀ x ∈ m, hasDefB t x = true))
    ∧ (∀ c, parentList t name = .recursion c →
        ∃ m x, c = m ++ [x] ∧ (m ++ [x]).head? = Option.some name ∧
          linkedB t (m ++ [x]) = true ∧ m.Nodup ∧
          (∀ y ∈ m, hasDefB t y = true) ∧ x ∈ m) := by
  refine ⟨parentList_no_fuel t name, ?_, ?_, ?_⟩
  · intro l h
    obtain ⟨m, hl, hh, hnd, _, hdef, hlink, hroot⟩ := plLoop_ok_shape _ _ _ _ h
    have hlm : l = m := by simpa using hl
    subst hlm
    exact ⟨hh, hnd, hdef, hlink, hroot⟩
  · intro mm h
    obtain ⟨m, hh, hlink, hnd, hdef, hfind⟩ :=
      plLoop_nf_shape _ _ _ _ (by simp [linkedB]) List.nodup_nil (by simp) h
    exact ⟨hfind, m, hh, by simpa using hlink, by simpa using hnd, by simpa using hdef⟩
  · intro c h
    obtain ⟨m, x, hc, hh, hlink, hnd, hdef, hx⟩ :=
      plLoop_rec_shape _ _ _ _ (by simp [linkedB]) List.nodup_nil (by simp) h
    exact ⟨m, x, by simpa using hc, hh, by simpa using hlink, by simpa using hnd,
      by simpa using hdef, by simpa using hx⟩

/-- Witness for C3: on the recursive-inheritance fixture the walk from
tpl1 fails with the chain tpl1, tpl2, tpl3, tpl1 repeating tpl1. -/
theorem c3_parentList_trichotomy_witness :
    ∃ m x, (["tpl1", "tpl2", "tpl3", "tpl1"] : List String) = m ++ [x] ∧
      (m ++ [x]).head? = Option.some "tpl1" ∧
      linkedB recTree (m ++ [x]) = true ∧ m.Nodup ∧
      (∀ y ∈ m, hasDefB recTree y = true) ∧ x ∈ m :=
  (c3_parentList_trichotomy recTree "tpl1").2.2.2 ["tpl1", "tpl2", "tpl3", "tpl1"] rfl

/-! ### compilationOrder invariant -/

theorem chain_closed {t : Tree} : ∀ m : List String,
    linkedB t m = true → rootEndB t m = true →
    ∀ k ∈ m, ∀ p, Edge t k p → p ∈ m := by
  intro m
  induction m with
  | nil =>
    intro _ _ k hk
    simp at hk
  | cons a rest ih =>
    intro hlink hroot k hk p hedge
    rcases List.mem_cons.mp hk with rfl | hk2
    · obtain ⟨d, hd, hp, hne⟩ := hedge
      cases rest with
      | nil =>
        have h1 : parentOf t k = Option.some "" := by
          simpa [rootEndB] using hroot
        simp only [parentOf, hd, Option.map_some'] at h1
        exact absurd (hp ▸ (by simpa using h1)) hne
      | cons b rest2 =>
        have h1 : parentOf t k = Option.some b := by
          have h2 := hlink
          simp only [linkedB, Bool.and_eq_true, decide_eq_true_eq] at h2
          exact h2.1
        simp only [parentOf, hd, Option.map_some'] at h1
        subst hp
        simp [by simpa using h1]
    · cases rest with
      | nil => simp at hk2
      | cons b rest2 =>
        have h2 := hlink
        simp only [linkedB, Bool.and_eq_true, decide_eq_true_eq] at h2
        have h3 : rootEndB t (b :: rest2) = true := by
          simpa [rootEndB] using hroot
        have := ih (by simpa [linkedB] using h2.2) h3 k hk2 p hedge
        exact List.mem_cons_of_mem _ this

theorem chain_noself {t : Tree} : ∀ m : List String,
    linkedB t m = true → rootEndB t m = true → m.Nodup →
    ∀ k ∈ m, ¬ Edge t k k := by
  intro m
  induction m with
  | nil =>
    intro _ _ _ k hk
    simp at hk
  | cons a rest ih =>
    intro hlink hroot hnd k hk hedge
    rcases List.mem_cons.mp hk with rfl | hk2
    · obtain ⟨d, hd, hp, hne⟩ := hedge
      cases rest with
      | nil =>
        have h1 : parentOf t k = Option.some "" := by
          simpa [rootEndB] using hroot
        simp only [parentOf, hd, Option.map_some'] at h1
        exact hne (hp ▸ (by simpa using h1))
      | cons b rest2 =>
        have h1 : parentOf t k = Option.some b := by
          have h2 := hlink
          simp only [linkedB, Bool.and_eq_true, decide_eq_true_eq] at h2
          exact h2.1
        simp only [parentOf, hd, Option.map_some'] at h1
        have hkb : k = b := by
          rw [← hp]
          simpa using h1
        have : k ∉ b :: rest2 := (List.nodup_cons.mp hnd).1
        exact this (by simp [hkb])
    · cases rest with
      | nil => simp at hk2
      | cons b rest2 =>
        have h2 := hlink
        simp only [linkedB, Bool.and_eq_true, decide_eq_true_eq] at h2
        have h3 : rootEndB t (b :: rest2) = true := by
          simpa [rootEndB] using hroot
        exact ih (by simpa [linkedB] using h2.2) h3 (List.nodup_cons.mp hnd).2 k hk2 hedge

/-- The loop invariant of the placement loops in `compilationOrder`:
every remaining dependency list is closed under parents of unplaced
names and free of self edges, remaining names are unplaced and present,
and every placed name's parent is placed strictly before it. -/
structure OrdInv (t : Tree) (r : List (List String)) (acc : List String) : Prop where
  closed : ∀ l ∈ r, ∀ k ∈ l, ∀ p, Edge t k p → p ∈ acc ∨ p ∈ l
  noSelf : ∀ l ∈ r, ∀ k ∈ l, ¬ Edge t k k
  fresh : ∀ l ∈ r, ∀ k ∈ l, k ∉ acc
  present : ∀ l ∈ r, ∀ k ∈ l, hasDefB t k = true
  accPresent : ∀ k ∈ acc, hasDefB t k = true
  accNodup : acc.Nodup
  accBefore : ∀ k ∈ acc, ∀ p, Edge t k p → Before acc p k

theorem ordInv_congr {t : Tree} {r1 r2 : List (List String)} {acc : List String}
    (hm : ∀ l, l ∈ r1 ↔ l ∈ r2) (h : OrdInv t r1 acc) : OrdInv t r2 acc where
  closed := fun l hl => h.closed l ((hm l).mpr hl)
  noSelf := fun l hl => h.noSelf l ((hm l).mpr hl)
  fresh := fun l hl => h.fresh l ((hm l).mpr hl)
  present := fun l hl => h.present l ((hm l).mpr hl)
  accPresent := h.accPresent
  accNodup := h.accNodup
  accBefore := h.accBefore

theorem ordInv_place {t : Tree} {done rest : List (List String)} {acc : List String}
    {n : String} (h : OrdInv t (done ++ [n] :: rest) acc) :
    OrdInv t ((done ++ rest).map (stripName n)) (acc ++ [n]) := by
  have hnl : ([n] : List String) ∈ done ++ [n] :: rest := by simp
  have hn_notacc : n ∉ acc := h.fresh [n] hnl n (by simp)
  have hn_present : hasDefB t n = true := h.present [n] hnl n (by simp)
  have hn_noself : ¬ Edge t n n := h.noSelf [n] hnl n (by simp)
  have hmem_of : ∀ l0 : List String, l0 ∈ done ++ rest → l0 ∈ done ++ [n] :: rest := by
    intro l0 hl0
    rcases List.mem_append.mp hl0 with h1 | h1
    · exact List.mem_append.mpr (Or.inl h1)
    · exact List.mem_append.mpr (Or.inr (List.mem_cons_of_mem _ h1))
  constructor
  · intro l hl k hk p hedge
    obtain ⟨l0, hl0, rfl⟩ := List.mem_map.mp hl
    have hk0 : k ∈ l0 ∧ k ≠ n := by simpa [stripName] using hk
    rcases h.closed l0 (hmem_of l0 hl0) k hk0.1 p hedge with hp | hp
    · left
      exact List.mem_append.mpr (Or.inl hp)
    · by_cases hpn : p = n
      · left
        simp [hpn]
      · right
        simp [stripName, hp, hpn]
  · intro l hl k hk
    obtain ⟨l0, hl0, rfl⟩ := List.mem_map.mp hl
    have hk0 : k ∈ l0 ∧ k ≠ n := by simpa [stripName] using hk
    exact h.noSelf l0 (hmem_of l0 hl0) k hk0.1
  · intro l hl k hk
    obtain ⟨l0, hl0, rfl⟩ := List.mem_map.mp hl
    have hk0 : k ∈ l0 ∧ k ≠ n := by simpa [stripName] using hk
    have h1 : k ∉ acc := h.fresh l0 (hmem_of l0 hl0) k hk0.1
    simp [hk0.2, h1]
  · intro l hl k hk
    obtain ⟨l0, hl0, rfl⟩ := List.mem_map.mp hl
    have hk0 : k ∈ l0 ∧ k ≠ n := by simpa [stripName] using hk
    exact h.present l0 (hmem_of l0 hl0) k hk0.1
  · intro k hk
    rcases List.mem_append.mp hk with h1 | h1
    · exact h.accPresent k h1
    · simp only [List.mem_singleton] at h1
      subst h1
      exact hn_present
  · simp [List.nodup_append, h.accNodup, hn_notacc]
  · intro k hk p hedge
    rcases List.mem_append.mp hk with h1 | h1
    · exact before_append_right (h.accBefore k h1 p hedge)
    · simp only [List.mem_singleton] at h1
      subst h1
      have hp : p ∈ acc := by
        rcases h.closed [k] hnl k (by simp) p hedge with h2 | h2
        · exact h2
        · simp only [List.mem_singleton] at h2
          exact absurd (h2 ▸ hedge) hn_noself
      exact before_append_new hp

theorem scanPassAux_inv {t : Tree} : ∀ f done todo acc,
    OrdInv t (done ++ todo) acc →
    OrdInv t (scanPassAux f done todo acc).1 (scanPassAux f done todo acc).2 ∧
    (∀ x ∈ acc, x ∈ (scanPassAux f done todo acc).2) := by
  intro f
  induction f with
  | zero =>
    intro done todo acc h
    cases todo with
    | nil => exact ⟨by simpa [scanPassAux] using h, fun x hx => by simpa [scanPassAux] using hx⟩
    | cons l todo2 =>
      refine ⟨?_, fun x hx => by simpa [scanPassAux] using hx⟩
      simpa [scanPassAux] using h
  | succ f ih =>
    intro done todo acc h
    cases todo with
    | nil => exact ⟨by simpa [scanPassAux] using h, fun x hx => by simpa [scanPassAux] using hx⟩
    | cons l rest =>
      match l with
      | [] =>
        have h2 : OrdInv t ((done ++ [([] : List String)]) ++ rest) acc :=
          ordInv_congr (by intro l0; simp [List.mem_append, List.mem_cons]) h
        simpa [scanPassAux] using ih (done ++ [([] : List String)]) rest acc h2
      | [n] =>
        have h2 := ordInv_place h
        have h3 : OrdInv t (List.map (stripName n) done ++ List.map (stripName n) rest)
            (acc ++ [n]) := by
          have he : List.map (stripName n) done ++ List.map (stripName n) rest
              = (done ++ rest).map (stripName n) := by simp
          rw [he]
          exact h2
        have h4 := ih (done.map (stripName n)) (rest.map (stripName n)) (acc ++ [n]) h3
        refine ⟨by simpa [scanPassAux] using h4.1, ?_⟩
        intro x hx
        have h5 : x ∈ acc ++ [n] := List.mem_append.mpr (Or.inl hx)
        simpa [scanPassAux] using h4.2 x h5
      | a :: b :: tl =>
        have h2 : OrdInv t ((done ++ [a :: b :: tl]) ++ rest) acc :=
          ordInv_congr (by intro l0; simp [List.mem_append, List.mem_cons]) h
        simpa [scanPassAux] using ih (done ++ [a :: b :: tl]) rest acc h2

theorem scanPassAux_count : ∀ (f : Nat) (done todo : List (List String)) (acc : List String),
    (scanPassAux f done todo acc).1.length + (scanPassAux f done todo acc).2.length
      = done.length + todo.length + acc.length := by
  intro f
  induction f with
  | zero =>
    intro done todo acc
    cases todo with
    | nil => simp [scanPassAux]
    | cons l rest =>
      simp [scanPassAux, List.length_append, List.length_cons]
  | succ f ih =>
    intro done todo acc
    cases todo with
    | nil => simp [scanPassAux]
    | cons l rest =>
      match l with
      | [] =>
        have h1 := ih (done ++ [([] : List String)]) rest acc
        simp only [scanPassAux]
        rw [h1]
        simp only [List.length_append, List.length_cons, List.length_nil]
        omega
      | [n] =>
        have h1 := ih (done.map (stripName n)) (rest.map (stripName n)) (acc ++ [n])
        simp only [scanPassAux]
        rw [h1]
        simp only [List.length_append, List.length_cons, List.length_nil, List.length_map]
        omega
      | a :: b :: tl =>
        have h1 := ih (done ++ [a :: b :: tl]) rest acc
        simp only [scanPassAux]
        rw [h1]
        simp only [List.length_append, List.length_cons, List.length_nil]
        omega

theorem orderLoop_count : ∀ (fuel : Nat) (r : List (List String)) (acc accF : List String),
    orderLoop fuel r acc = Option.some accF → accF.length = r.length + acc.length := by
  intro fuel
  induction fuel with
  | zero =>
    intro r acc accF h
    cases r with
    | nil =>
      have : accF = acc := by cases h; rfl
      subst this
      simp
    | cons l r2 => simp [orderLoop] at h
  | succ f ih =>
    intro r acc accF h
    cases r with
    | nil =>
      have : accF = acc := by cases h; rfl
      subst this
      simp
    | cons l r2 =>
      simp only [orderLoop] at h
      have h1 := ih _ _ accF h
      have h2 := scanPassAux_count (l :: r2).length [] (l :: r2) acc
      simp only [scanPass] at h1
      simp only [List.length_nil, List.length_cons] at h1 h2 ⊢
      omega

theorem orderLoop_inv {t : Tree} : ∀ (fuel : Nat) (r : List (List String)) (acc accF : List String),
    OrdInv t r acc → orderLoop fuel r acc = Option.some accF →
    OrdInv t [] accF := by
  intro fuel
  induction fuel with
  | zero =>
    intro r acc accF h hloop
    cases r with
    | nil =>
      have : accF = acc := by cases hloop; rfl
      subst this
      exact h
    | cons l r2 => simp [orderLoop] at hloop
  | succ f ih =>
    intro r acc accF h hloop
    cases r with
    | nil =>
      have : accF = acc := by cases hloop; rfl
      subst this
      exact h
    | cons l r2 =>
      simp only [orderLoop] at hloop
      have hInv := (@scanPassAux_inv t (l :: r2).length [] (l :: r2) acc
        (by simpa using h)).1
      refine ih _ _ accF ?_ hloop
      simpa [scanPass] using hInv

theorem collectChains_ok {t : Tree} : ∀ (names : List String) (chains : List (List String)),
    collectChains t names = Except.ok chains →
    chains.length = names.length ∧ ∀ c ∈ chains, ∃ nm, parentList t nm = .ok c := by
  intro names
  induction names with
  | nil =>
    intro chains h
    have : chains = [] := by cases h; rfl
    subst this
    exact ⟨rfl, by intro c hc; simp at hc⟩
  | cons nm rest ih =>
    intro chains h
    simp only [collectChains] at h
    split at h
    · rename_i l hl
      split at h
      · rename_i ls hls
        have : chains = l :: ls := by cases h; rfl
        subst this
        obtain ⟨h1, h2⟩ := ih ls hls
        refine ⟨by simp [h1], ?_⟩
        intro c hc
        rcases List.mem_cons.mp hc with rfl | hc2
        · exact ⟨nm, hl⟩
        · exact h2 c hc2
      · simp at h
    · simp at h
    · simp at h
    · simp at h

theorem ordInv_init {t : Tree} {chains : List (List String)}
    (h : collectChains t (keysOf t) = Except.ok chains) : OrdInv t chains [] := by
  obtain ⟨_, h2⟩ := collectChains_ok _ _ h
  constructor
  · intro l hl k hk p hedge
    obtain ⟨nm, hnm⟩ := h2 l hl
    obtain ⟨m, hlm, _, _, _, _, hlink, hroot⟩ := plLoop_ok_shape _ _ _ _ hnm
    have hml : l = m := by simpa using hlm
    subst hml
    exact Or.inr (chain_closed l hlink hroot k hk p hedge)
  · intro l hl k hk
    obtain ⟨nm, hnm⟩ := h2 l hl
    obtain ⟨m, hlm, _, hnd, _, _, hlink, hroot⟩ := plLoop_ok_shape _ _ _ _ hnm
    have hml : l = m := by simpa using hlm
    subst hml
    exact chain_noself l hlink hroot hnd k hk
  · intro l _ k _
    simp
  · intro l hl k hk
    obtain ⟨nm, hnm⟩ := h2 l hl
    obtain ⟨m, hlm, _, _, _, hdef, _, _⟩ := plLoop_ok_shape _ _ _ _ hnm
    have hml : l = m := by simpa using hlm
    subst hml
    exact hdef k hk
  · intro k hk
    simp at hk
  · exact List.nodup_nil
  · intro k hk
    simp at hk

/-- C1 amended: in a successful `compilationOrder`, every template with
a non-empty parent is ordered strictly before that parent — children
precede parents, matching the code comment that parents are compiled
only after all their dependents. -/
theorem c1_compilationOrder_parent_after {t : Tree} {order : List String}
    {child p : String}
    (h : compilationOrder t = Except.ok order) (hedge : Edge t child p)
    (hchild : child ∈ order) : Before order child p := by
  simp only [compilationOrder] at h
  split at h
  · simp at h
  · rename_i chains hchains
    split at h
    · rename_i accF hloop
      have hrev : order = accF.reverse := by cases h; rfl
      subst hrev
      have hinv := orderLoop_inv _ _ _ _ (ordInv_init hchains) hloop
      have hmem : child ∈ accF := by simpa using hchild
      exact before_reverse (hinv.accBefore child hmem p hedge)
    · simp at h

/-- Witness for the amended C1: in the two-template tree the child b is
ordered before its parent a. -/
theorem c1_compilationOrder_parent_after_witness : Before ["b", "a"] "b" "a" :=
  @c1_compilationOrder_parent_after twoTree ["b", "a"] "b" "a" rfl
    ⟨{ parent := "a", list := sl [] }, rfl, rfl, by decide⟩ (by decide)

/-- C1 counterexample: the claim as stated — a parent occurs earlier in
the returned sequence than its child — fails on the two-template tree,
where the order is b before a although a is b's parent. -/
theorem c1_counterexample :
    compilationOrder twoTree = Except.ok ["b", "a"] ∧
    Edge twoTree "b" "a" ∧ ¬ Before ["b", "a"] "a" "b" := by
  refine ⟨rfl, ⟨{ parent := "a", list := sl [] }, rfl, rfl, by decide⟩, by decide⟩

theorem compilationOrder_covers {t : Tree} {order : List String}
    (hnd : (keysOf t).Nodup) (h : compilationOrder t = Except.ok order) :
    ∀ k ∈ keysOf t, k ∈ order := by
  simp only [compilationOrder] at h
  split at h
  · simp at h
  · rename_i chains hchains
    split at h
    · rename_i accF hloop
      have hrev : order = accF.reverse := by cases h; rfl
      subst hrev
      have hinv := orderLoop_inv _ _ _ _ (ordInv_init hchains) hloop
      obtain ⟨hlen, _⟩ := collectChains_ok _ _ hchains
      have hcount := orderLoop_count _ _ _ _ hloop
      have hsub : ∀ x ∈ accF, x ∈ keysOf t := by
        intro x hx
        have h1 : hasDefB t x = true := hinv.accPresent x hx
        obtain ⟨d, hd⟩ := Option.isSome_iff_exists.mp (by simpa [hasDefB] using h1)
        exact findTpl_mem_keys hd
      have hkeys : (keysOf t).length = t.length := by simp [keysOf]
      have hlen2 : accF.length = (keysOf t).length := by
        simp only [List.length_nil] at hcount
        omega
      have hfs : accF.toFinset = (keysOf t).toFinset := by
        apply Finset.eq_of_subset_of_card_le
        · intro x hx
          simp only [List.mem_toFinset] at hx ⊢
          exact hsub x hx
        · rw [List.toFinset_card_of_nodup hnd, List.toFinset_card_of_nodup hinv.accNodup,
            hlen2]
      intro k hk
      have h3 : k ∈ accF.toFinset := by
        rw [hfs]
        simpa using hk
      simpa using List.mem_toFinset.mp h3
    · simp at h

/-! ### cleanupBlock produces block- and fill-free bodies -/

mutual
theorem noBFO_cleanupOpt (l : OptList) : noBFO (cleanupOpt l) = true := by
  cases l with
  | none => rfl
  | some l => simp [cleanupOpt, noBFO, noBFL_cleanupList]
theorem noBFL_cleanupList (l : NodeList) : noBFL (cleanupList l) = true := by
  cases l with
  | nil => rfl
  | cons v rest =>
    cases v with
    | blockN nm l => simp [cleanupList, noBFL, noBF, noBFO_cleanupOpt, noBFL_cleanupList rest]
    | fillN nm l => simp [cleanupList, noBFL_cleanupList rest]
    | text s => simp [cleanupList, noBFL, noBF, noBFL_cleanupList rest]
    | actionN => simp [cleanupList, noBFL, noBF, noBFL_cleanupList rest]
    | tmpl n => simp [cleanupList, noBFL, noBF, noBFL_cleanupList rest]
    | listN l => simp [cleanupList, noBFL, noBF, noBFO_cleanupOpt, noBFL_cleanupList rest]
    | ifN l e => simp [cleanupList, noBFL, noBF, noBFO_cleanupOpt, noBFL_cleanupList rest]
    | rangeN l e => simp [cleanupList, noBFL, noBF, noBFO_cleanupOpt, noBFL_cleanupList rest]
    | withN l e => simp [cleanupList, noBFL, noBF, noBFO_cleanupOpt, noBFL_cleanupList rest]
end

/-! ### inlineDefine postconditions -/

theorem inlineDefine_post : ∀ (fuel : Nat) (t : Tree) (n : String) (t2 : Tree),
    inlineDefine t n fuel = Except.ok t2 →
    (∃ d2, findTpl t2 n = Option.some d2 ∧ d2.parent = "" ∧ noBFO d2.list = true) ∧
    (∀ k, k ≠ n → findTpl t2 k = findTpl t k) ∧
    t2.length = t.length ∧ keysOf t2 = keysOf t := by
  intro fuel
  induction fuel with
  | zero =>
    intro t n t2 h
    simp [inlineDefine] at h
  | succ f ih =>
    intro t n t2 h
    simp only [inlineDefine] at h
    split at h
    · simp at h
    · rename_i define hfind
      by_cases hpar : define.parent = ""
      · rw [if_pos hpar] at h
        have ht2 : t2 = updateTpl t n { define with list := cleanupOpt define.list } := by
          cases h; rfl
        subst ht2
        refine ⟨⟨_, findTpl_update_self hfind, hpar, noBFO_cleanupOpt _⟩, ?_, ?_, ?_⟩
        · intro k hk
          exact findTpl_update_other hk
        · exact updateTpl_length
        · exact keysOf_update
      · rw [if_neg hpar] at h
        split at h
        · simp at h
        · rename_i parent hfp
          split at h
          · simp at h
          · rename_i defNodes hdl
            split at h
            · simp at h
            · rename_i finalList happ
              obtain ⟨h1, h2, h3, h4⟩ := ih _ _ _ h
              refine ⟨h1, ?_, ?_, ?_⟩
              · intro k hk
                rw [h2 k hk]
                exact findTpl_update_other hk
              · rw [h3]
                exact updateTpl_length
              · rw [h4]
                exact keysOf_update

theorem inlineDefines_post : ∀ (names : List String) (t t2 : Tree),
    inlineDefines t names = Except.ok t2 →
    (∀ k ∈ names,
        ∃ d2, findTpl t2 k = Option.some d2 ∧ d2.parent = "" ∧ noBFO d2.list = true) ∧
    (∀ k, k ∉ names → findTpl t2 k = findTpl t k) ∧ keysOf t2 = keysOf t := by
  intro names
  induction names with
  | nil =>
    intro t t2 h
    have : t2 = t := by cases h; rfl
    subst this
    exact ⟨by intro k hk; simp at hk, fun k _ => rfl, rfl⟩
  | cons n rest ih =>
    intro t t2 h
    simp only [inlineDefines] at h
    split at h
    · rename_i tm hm
      obtain ⟨ih1, ih2, ih3⟩ := ih tm t2 h
      obtain ⟨hd, hframe, _, hkeys⟩ := inlineDefine_post _ _ _ _ hm
      refine ⟨?_, ?_, ?_⟩
      · intro k hk
        by_cases hkr : k ∈ rest
        · exact ih1 k hkr
        · have hkn : k = n := by
            rcases List.mem_cons.mp hk with h5 | h5
            · exact h5
            · exact absurd h5 hkr
          subst hkn
          obtain ⟨d2, hd2, hp2, hc2⟩ := hd
          exact ⟨d2, by rw [ih2 k hkr]; exact hd2, hp2, hc2⟩
      · intro k hk
        have hkn : k ≠ n := fun hh => hk (by simp [hh])
        have hkr : k ∉ rest := fun hh => hk (by simp [hh])
        rw [ih2 k hkr]
        exact hframe k hkn
      · rw [ih3, hkeys]
    · simp at h

/-- C2: when `inlineTree` succeeds, every define in the resulting tree
has an empty parent and a body containing no block and no fill node at
any nesting depth. -/
theorem c2_inlineTree_clean {t t2 : Tree} (hnd : (keysOf t).Nodup)
    (h : inlineTree t = Except.ok t2) :
    ∀ n d, findTpl t2 n = Option.some d → d.parent = "" ∧ noBFO d.list = true := by
  simp only [inlineTree] at h
  split at h
  · simp at h
  · rename_i order horder
    intro n d hfind
    obtain ⟨hin, hout, hkeys⟩ := inlineDefines_post _ _ _ h
    have hk : n ∈ keysOf t := by
      rw [← hkeys]
      exact findTpl_mem_keys hfind
    have hmem : n ∈ order := compilationOrder_covers hnd horder n hk
    obtain ⟨d2, hd2, hpar, hclean⟩ := hin n hmem
    rw [hfind] at hd2
    cases hd2
    exact ⟨hpar, hclean⟩

/-- Witness for C2 at the five-level slot fixture: the inlined tpl5 is
parentless and block/fill free. -/
theorem c2_inlineTree_clean_witness :
    slotTpl5.parent = "" ∧ noBFO slotTpl5.list = true :=
  @c2_inlineTree_clean slotTree _ (by decide) rfl "tpl5" slotTpl5 rfl

/-- C7: inlining the five-level slot fixture succeeds and gives tpl5 a
body whose literal text, whitespace ignored, is A-h4-B-f5-C: the header
comes from level 4 and the footer from level 5. -/
theorem c7_five_level_inheritance :
    isOkTree (inlineTree slotTree) = true ∧
    bodyText slotInlined "tpl5" = Option.some "A-h4-B-f5-C" := by
  exact ⟨rfl, rfl⟩

/-- C10: a nil list node is returned unchanged by both `cleanupBlock`
and `applyFillers` (no dereference of the absent list), and inlining a
tree whose if, range and with nodes lack else branches completes
normally. -/
theorem c10_nil_list_safe :
    cleanupOpt OptList.none = OptList.none ∧
    (∀ (fillers : Fillers) (used : List String),
        applyOpt fillers OptList.none used = (OptList.none, used)) ∧
    isOkTree (inlineTree nilElseTree) = true :=
  ⟨rfl, fun _ _ => rfl, rfl⟩

/-! ### ensurePipelineContains (claims C4, C5, C6) -/

theorem scanLoop_noescape {cmds : List CmdN} : ∀ (i : Nat) (idents : List CmdN),
    i ≤ cmds.length → ∀ (j : Nat) (c : CmdN), j < i → cmds.get? j = Option.some c →
    leadIdent c = Option.some "noescape" → scanLoop cmds i idents = Option.none := by
  intro i
  induction i with
  | zero =>
    intro idents _ j c hj
    omega
  | succ i ih =>
    intro idents hi j c hj hget hlead
    simp only [scanLoop]
    split
    · rename_i hnone
      have h1 : cmds.length ≤ i := List.get?_eq_none.mp hnone
      omega
    · rename_i cmd hsome
      split
      · rename_i id hhead
        by_cases hid : id = "noescape"
        · simp [hid]
        · rw [if_neg hid]
          by_cases hji : j < i
          · exact ih idents (by omega) j c hji hget hlead
          · have hje : j = i := by omega
            subst hje
            rw [hget] at hsome
            cases hsome
            rw [leadIdent, hhead] at hlead
            simp at hlead
            exact absurd hlead hid
      · rename_i hother
        by_cases hji : j < i
        · exact ih (cmds.drop (i + 1)) (by omega) j c hji hget hlead
        · have hje : j = i := by omega
          subst hje
          rw [hget] at hsome
          cases hsome
          rw [leadIdent] at hlead
          cases hh : c.args.head? with
          | none => rw [hh] at hlead; simp at hlead
          | some a =>
            cases a with
            | ident nm =>
              exact (hother nm hh).elim
            | field f => rw [hh] at hlead; simp at hlead
            | otherArg => rw [hh] at hlead; simp at hlead

theorem scanLoop_no_noescape {cmds : List CmdN} : ∀ (i : Nat) (idents : List CmdN),
    i ≤ cmds.length →
    (∀ (j : Nat) (c : CmdN), j < i → cmds.get? j = Option.some c →
      leadIdent c ≠ Option.some "noescape") →
    scanLoop cmds i idents =
      Option.some (match leastNonIdentBelow cmds i with
        | Option.some j => cmds.drop (j + 1)
        | Option.none => idents) := by
  intro i
  induction i with
  | zero =>
    intro idents _ _
    simp [scanLoop, leastNonIdentBelow]
  | succ i ih =>
    intro idents hi hno
    have hilt : i < cmds.length := by omega
    simp only [scanLoop]
    split
    · rename_i hnone
      have h1 : cmds.length ≤ i := List.get?_eq_none.mp hnone
      omega
    · rename_i cmd hsome
      split
      · rename_i id hhead
        have hid : ¬ (id = "noescape") := by
          intro hid
          apply hno i cmd (by omega) hsome
          rw [leadIdent, hhead, hid]
        rw [if_neg hid]
        have hident : isIdentCmd cmd = true := by
          simp [isIdentCmd, leadIdent, hhead]
        rw [ih idents (by omega) (fun j c hj hc => hno j c (by omega) hc)]
        have hlb : leastNonIdentBelow cmds (i + 1) = leastNonIdentBelow cmds i := by
          simp only [leastNonIdentBelow]
          cases hlb2 : leastNonIdentBelow cmds i with
          | some j => rfl
          | none => simp [← List.get?_eq_getElem?, hsome, hident]
        rw [hlb]
      · rename_i hother
        have hident : isIdentCmd cmd = false := by
          cases hh : cmd.args.head? with
          | none => simp [isIdentCmd, leadIdent, hh]
          | some a =>
            cases a with
            | ident nm => exact (hother nm hh).elim
            | field f => simp [isIdentCmd, leadIdent, hh]
            | otherArg => simp [isIdentCmd, leadIdent, hh]
        rw [ih (cmds.drop (i + 1)) (by omega) (fun j c hj hc => hno j c (by omega) hc)]
        have hlb : leastNonIdentBelow cmds (i + 1) =
            match leastNonIdentBelow cmds i with
            | Option.some j => Option.some j
            | Option.none => Option.some i := by
          simp only [leastNonIdentBelow]
          cases hlb2 : leastNonIdentBelow cmds i with
          | some j => rfl
          | none => simp [← List.get?_eq_getElem?, hsome, hident]
        rw [hlb]
        cases hlb2 : leastNonIdentBelow cmds i with
        | some j => simp
        | none => simp

theorem hasNoescape_unchanged {p : PipeN} (s : List String)
    (h : hasNoescape p.cmds = true) : ensurePipelineContains p s = Option.some p := by
  by_cases hs : s.length = 0
  · simp [ensurePipelineContains, hs]
  · obtain ⟨c, hc, hlead⟩ : ∃ c ∈ p.cmds, leadIdent c = Option.some "noescape" := by
      obtain ⟨c, hc, hl⟩ := List.any_eq_true.mp h
      exact ⟨c, hc, by simpa using hl⟩
    obtain ⟨j, hj⟩ := List.mem_iff_get?.mp hc
    have hjlt : j < p.cmds.length := by
      by_contra hcon
      rw [List.get?_eq_none.mpr (by omega)] at hj
      cases hj
    have hnone := scanLoop_noescape p.cmds.length p.cmds (le_refl _) j c hjlt hj hlead
    simp [ensurePipelineContains, hs, hnone]

/-- C5 amended: the backward scan of `ensurePipelineContains` visits the
whole command list: the pipeline is left entirely unchanged whenever any
command's leading argument is the identifier noescape, wherever it
occurs; when no noescape is present, the identifier segment the merge
acts on is the suffix after the lowest-indexed non-identifier command,
not in general the trailing identifier run, and the pipeline can also be
left unchanged with no noescape at all (required escapers already
present). -/
theorem c5_scan_behaviour (p : PipeN) (s : List String) :
    (hasNoescape p.cmds = true → ensurePipelineContains p s = Option.some p) ∧
    (hasNoescape p.cmds = false →
      scanLoop p.cmds p.cmds.length p.cmds = Option.some (mergeSegment p.cmds)) := by
  constructor
  · intro h
    exact hasNoescape_unchanged s h
  · intro h
    have hno : ∀ (j : Nat) (c : CmdN), j < p.cmds.length → p.cmds.get? j = Option.some c →
        leadIdent c ≠ Option.some "noescape" := by
      intro j c hj hget hlead
      have hmem : c ∈ p.cmds := List.get?_mem hget
      have : hasNoescape p.cmds = true := by
        apply List.any_eq_true.mpr
        exact ⟨c, hmem, by simpa using hlead⟩
      rw [h] at this
      cases this
    rw [scanLoop_no_noescape p.cmds.length p.cmds (le_refl _) hno]
    rfl

/-- Witness for the amended C5: a noescape pipeline is returned
unchanged, and for `.X | html` the merge segment is the trailing
identifier command. -/
theorem c5_scan_behaviour_witness :
    ensurePipelineContains (pipeOf ["noescape"]) ["html"]
        = Option.some (pipeOf ["noescape"]) ∧
    scanLoop pipeHtml.cmds pipeHtml.cmds.length pipeHtml.cmds
        = Option.some (mergeSegment pipeHtml.cmds) :=
  ⟨(c5_scan_behaviour (pipeOf ["noescape"]) ["html"]).1 (by decide),
   (c5_scan_behaviour pipeHtml ["urlquery"]).2 (by decide)⟩

/-- C5 counterexample: for the pipeline `.X | html` and required list
html, the pipeline is left entirely unchanged although noescape does not
occur in its trailing identifier run, refuting the claimed equivalence. -/
theorem c5_counterexample :
    ¬ ((ensurePipelineContains pipeHtml ["html"] = Option.some pipeHtml) ↔
       hasNoescape (trailingIdentRun pipeHtml.cmds) = true) := by
  decide

/-- C6: `.X | html` with required urlquery gains urlquery at the end,
and `.X | html | urlquery` with required html is unchanged — the
equivalent sanitizer already present is kept, nothing is duplicated. -/
theorem c6_ensure_examples :
    ensurePipelineContains pipeHtml ["urlquery"]
        = Option.some (pipeOf ["html", "urlquery"]) ∧
    ensurePipelineContains pipeHtmlUrlquery ["html"] = Option.some pipeHtmlUrlquery :=
  ⟨rfl, rfl⟩

/-- C4: the code is not idempotent.  On the pipeline `.X` with required
list cssescaper, attrescaper, html, the first application drops the
attrescaper (redundant after cssescaper) and yields
`.X | cssescaper | html`; the second application inserts another html
command, so applying `ensurePipelineContains` to its own output changes
the pipeline again. -/
theorem c4_not_idempotent :
    ensurePipelineContains pipeXOnly reqCssAttrHtml
        = Option.some (pipeOf ["html_template_cssescaper", "html"]) ∧
    ensurePipelineContains (pipeOf ["html_template_cssescaper", "html"]) reqCssAttrHtml
        = Option.some (pipeOf ["html_template_cssescaper", "html", "html"]) ∧
    pipeOf ["html_template_cssescaper", "html", "html"]
        ≠ pipeOf ["html_template_cssescaper", "html"] :=
  ⟨rfl, rfl, by decide⟩

/-! ### Branch divergence (claim C8, spec-modelled) -/

/-- C8: in the modelled driver an absent branch ends in the entry
context; an if or with whose two branches end in structurally different
contexts fails with a branch-divergence error naming the construct; and
on the concrete example the if branch ends inside a single-quoted URL
attribute value while the else branch stays in plain text, so the
template fails to compile with the if branch-divergence error. -/
theorem c8_branch_divergence :
    (∀ (c : Context), escOpt c OptList.none = Except.ok c) ∧
    (∀ (c a b : Context) (l e : OptList) (rest : NodeList),
      escOpt c l = Except.ok a → escOpt c e = Except.ok b → a ≠ b →
      escList c (.cons (.ifN l e) rest) = Except.error (.branchErr "if")) ∧
    (∀ (c a b : Context) (l e : OptList) (rest : NodeList),
      escOpt c l = Except.ok a → escOpt c e = Except.ok b → a ≠ b →
      escList c (.cons (.withN l e) rest) = Except.error (.branchErr "with")) ∧
    scanText textContext "<a href='" ≠ scanText textContext "title='" ∧
    (scanText textContext "<a href='").attr = AttrClass.acURL ∧
    scanText textContext "title='" = textContext ∧
    escList textContext c8Body = Except.error (.branchErr "if") := by
  refine ⟨fun c => rfl, ?_, ?_, by decide, rfl, rfl, rfl⟩
  · intro c a b l e rest h1 h2 hne
    simp [escList, h1, h2, hne]
  · intro c a b l e rest h1 h2 hne
    simp [escList, h1, h2, hne]

/-- Witness for C8: the divergence rule applied at the concrete example
branch contexts. -/
theorem c8_branch_divergence_witness :
    escList textContext
        (.cons (.ifN (sl [.text "<a href='"]) (sl [.text "title='"])) .nil)
      = Except.error (.branchErr "if") :=
  c8_branch_divergence.2.1 textContext (scanText textContext "<a href='")
    (scanText textContext "title='") (sl [.text "<a href='"]) (sl [.text "title='"])
    .nil rfl rfl (by decide)

/-! ### Lemmas for C9: success of inlineTree after a successful ordering -/

theorem plLoop_step {t : Tree} {f : Nat} {name : String} {acc : List String}
    {d : DefineNode} (hf : findTpl t name = Option.some d) (hm : name ∉ acc)
    (hp : d.parent ≠ "") :
    parentListLoop t (f+1) name acc = parentListLoop t f d.parent (acc ++ [name]) := by
  simp only [parentListLoop]
  rw [hf]
  simp [hm, hp]

theorem plLoop_root {t : Tree} {f : Nat} {name : String} {acc : List String}
    {d : DefineNode} (hf : findTpl t name = Option.some d) (hm : name ∉ acc)
    (hp : d.parent = "") :
    parentListLoop t (f+1) name acc = .ok (acc ++ [name]) := by
  simp only [parentListLoop]
  rw [hf]
  simp [hm, hp]

theorem plLoop_acc_shift {t : Tree} : ∀ (fuel : Nat) (name : String)
    (acc acc2 m : List String),
    parentListLoop t fuel name acc = .ok (acc ++ m) → m.Nodup →
    (∀ x ∈ m, x ∉ acc2) →
    parentListLoop t fuel name acc2 = .ok (acc2 ++ m) := by
  intro fuel
  induction fuel with
  | zero =>
    intro name acc acc2 m h
    simp [parentListLoop] at h
  | succ f ih =>
    intro name acc acc2 m h hnd hfr
    obtain ⟨m0, hl0, hh0, _, _, _, _, _⟩ := plLoop_ok_shape _ _ _ _ h
    have hm0 : m = m0 := List.append_cancel_left hl0
    subst hm0
    cases m with
    | nil => simp at hh0
    | cons nm1 m2 =>
      have hn1 : nm1 = name := by simpa using hh0
      subst hn1
      have hnacc2 : nm1 ∉ acc2 := hfr nm1 (by simp)
      simp only [parentListLoop] at h ⊢
      split at h
      · simp at h
      · rename_i d hf
        by_cases hmem : nm1 ∈ acc
        · rw [if_pos hmem] at h
          simp at h
        · rw [if_neg hmem] at h
          rw [if_neg hnacc2]
          by_cases hroot : d.parent = ""
          · rw [if_pos hroot] at h
            rw [if_pos hroot]
            simp only [PLResult.ok.injEq] at h
            have h3 : m2 = [] := by
              have := List.append_cancel_left h
              simpa using this.symm
            subst h3
            rfl
          · rw [if_neg hroot] at h
            rw [if_neg hroot]
            have h2 : acc ++ nm1 :: m2 = (acc ++ [nm1]) ++ m2 := by simp
            rw [h2] at h
            have h4 := ih d.parent (acc ++ [nm1]) (acc2 ++ [nm1]) m2 h
              (List.nodup_cons.mp hnd).2
              (by
                intro x hx
                have h5 : x ∉ acc2 := hfr x (by simp [hx])
                have h6 : x ≠ nm1 := by
                  intro hh
                  exact (List.nodup_cons.mp hnd).1 (hh ▸ hx)
                simp [h5, h6])
            have h7 : (acc2 ++ [nm1]) ++ m2 = acc2 ++ nm1 :: m2 := by simp
            rw [h7] at h4
            exact h4

theorem plLoop_congr {t t2 : Tree} : ∀ (fuel : Nat) (name : String)
    (acc m : List String),
    parentListLoop t fuel name acc = .ok (acc ++ m) →
    (∀ x ∈ m, findTpl t2 x = findTpl t x) →
    parentListLoop t2 fuel name acc = .ok (acc ++ m) := by
  intro fuel
  induction fuel with
  | zero =>
    intro name acc m h
    simp [parentListLoop] at h
  | succ f ih =>
    intro name acc m h hsame
    obtain ⟨m0, hl0, hh0, _, _, _, _, _⟩ := plLoop_ok_shape _ _ _ _ h
    have hm0 : m = m0 := List.append_cancel_left hl0
    subst hm0
    cases m with
    | nil => simp at hh0
    | cons nm1 m2 =>
      have hn1 : nm1 = name := by simpa using hh0
      subst hn1
      simp only [parentListLoop] at h
      split at h
      · simp at h
      · rename_i d hf
        have hf2 : findTpl t2 nm1 = Option.some d := by
          rw [hsame nm1 (by simp)]
          exact hf
        by_cases hmem : nm1 ∈ acc
        · rw [if_pos hmem] at h
          simp at h
        · rw [if_neg hmem] at h
          by_cases hroot : d.parent = ""
          · rw [if_pos hroot] at h
            rw [plLoop_root hf2 hmem hroot]
            exact h
          · rw [if_neg hroot] at h
            rw [plLoop_step hf2 hmem hroot]
            have h2 : acc ++ nm1 :: m2 = (acc ++ [nm1]) ++ m2 := by simp
            rw [h2] at h ⊢
            exact ih d.parent (acc ++ [nm1]) m2 h
              (fun x hx => hsame x (by simp [hx]))

theorem plLoop_trunc {t t2 : Tree} {nn : String} {d0 : DefineNode}
    (hfn : findTpl t2 nn = Option.some d0) (hp0 : d0.parent = "")
    (hframe : ∀ k, k ≠ nn → findTpl t2 k = findTpl t k) :
    ∀ (fuel : Nat) (name : String) (acc l : List String),
    parentListLoop t fuel name acc = .ok l →
    ∃ l2, parentListLoop t2 fuel name acc = .ok l2 := by
  intro fuel
  induction fuel with
  | zero =>
    intro name acc l h
    simp [parentListLoop] at h
  | succ f ih =>
    intro name acc l h
    simp only [parentListLoop] at h
    split at h
    · simp at h
    · rename_i d hf
      by_cases hmem : name ∈ acc
      · rw [if_pos hmem] at h
        simp at h
      · rw [if_neg hmem] at h
        by_cases hnn : name = nn
        · subst hnn
          exact ⟨acc ++ [name], plLoop_root hfn hmem hp0⟩
        · have hf2 : findTpl t2 name = Option.some d := by
            rw [hframe name hnn]
            exact hf
          by_cases hroot : d.parent = ""
          · exact ⟨acc ++ [name], plLoop_root hf2 hmem hroot⟩
          · rw [if_neg hroot] at h
            obtain ⟨l2, hl2⟩ := ih d.parent (acc ++ [name]) l h
            exact ⟨l2, by rw [plLoop_step hf2 hmem hroot]; exact hl2⟩

theorem parentList_ok_length {t : Tree} {n : String} {l : List String}
    (h : parentList t n = .ok l) : l.length ≤ t.length := by
  obtain ⟨m, hl, _, hnd, _, hdef, _, _⟩ := plLoop_ok_shape _ _ _ _ h
  have hlm : l = m := by simpa using hl
  subst hlm
  have hsub : ∀ x ∈ l, x ∈ keysOf t := by
    intro x hx
    obtain ⟨d, hd⟩ := Option.isSome_iff_exists.mp (by simpa [hasDefB] using hdef x hx)
    exact findTpl_mem_keys hd
  have := nodup_subset_length hnd hsub
  simpa [keysOf] using this

theorem collectChains_names {t : Tree} : ∀ (names : List String)
    (chains : List (List String)), collectChains t names = Except.ok chains →
    ∀ nm ∈ names, ∃ l, parentList t nm = .ok l := by
  intro names
  induction names with
  | nil =>
    intro chains _ nm hnm
    simp at hnm
  | cons n2 rest ih =>
    intro chains h nm hnm
    simp only [collectChains] at h
    split at h
    · rename_i l hl
      split at h
      · rename_i ls hls
        rcases List.mem_cons.mp hnm with rfl | hr
        · exact ⟨l, hl⟩
        · exact ih ls hls nm hr
      · simp at h
    · simp at h
    · simp at h
    · simp at h

theorem compilationOrder_mem_keys {t : Tree} {order : List String}
    (h : compilationOrder t = Except.ok order) : ∀ k ∈ order, k ∈ keysOf t := by
  simp only [compilationOrder] at h
  split at h
  · simp at h
  · rename_i chains hchains
    split at h
    · rename_i accF hloop
      have hrev : order = accF.reverse := by cases h; rfl
      subst hrev
      have hinv := orderLoop_inv _ _ _ _ (ordInv_init hchains) hloop
      intro k hk
      have hk2 : k ∈ accF := by simpa using hk
      obtain ⟨d, hd⟩ := Option.isSome_iff_exists.mp
        (by simpa [hasDefB] using hinv.accPresent k hk2)
      exact findTpl_mem_keys hd
    · simp at h

theorem compilationOrder_chains {t : Tree} {order : List String}
    (h : compilationOrder t = Except.ok order) :
    ∀ k ∈ keysOf t, ∃ l, parentList t k = .ok l := by
  simp only [compilationOrder] at h
  split at h
  · simp at h
  · rename_i chains hchains
    split at h
    · exact collectChains_names _ _ hchains
    · simp at h

/-! Success-path unfolding equations for inlineDefine. -/

theorem applyOpt_some (f : Fillers) (l : NodeList) (u : List String) :
    applyOpt f (OptList.some l) u =
      (OptList.some (applyList f l u).1, (applyList f l u).2) := rfl

theorem inlineDefine_root {t : Tree} {n : String} {f : Nat} {d : DefineNode}
    (hfd : findTpl t n = Option.some d) (hpar : d.parent = "") :
    inlineDefine t n (f+1) =
      Except.ok (updateTpl t n { d with list := cleanupOpt d.list }) := by
  simp only [inlineDefine]
  rw [hfd]
  simp [hpar]

theorem inlineDefine_step {t : Tree} {n : String} {f : Nat} {d pd : DefineNode}
    {defNodes pl : NodeList}
    (hfd : findTpl t n = Option.some d) (hpar : d.parent ≠ "")
    (hfp : findTpl t d.parent = Option.some pd)
    (hdl : d.list = OptList.some defNodes) (hpl : pd.list = OptList.some pl) :
    inlineDefine t n (f+1) =
      inlineDefine (updateTpl t n
        { parent := pd.parent,
          list := OptList.some (appendNL
            (applyList (collectFillers defNodes []) pl []).1
            (leftoverFills (collectFillers defNodes [])
              (applyList (collectFillers defNodes []) pl []).2)) }) n f := by
  simp only [inlineDefine]
  rw [hfd]
  simp [hpar, hfp, hdl, hpl, applyOpt_some, appendNodes]

theorem findTpl_update_none {t : Tree} {n : String} {d : DefineNode}
    (h : findTpl t n = Option.none) :
    findTpl (updateTpl t n d) n = Option.none := by
  induction t with
  | nil => rfl
  | cons kv rest ih =>
    obtain ⟨k2, d2⟩ := kv
    by_cases h2 : k2 = n
    · simp [findTpl, h2] at h
    · simp only [findTpl, if_neg h2] at h
      simp [findTpl, updateTpl, h2, ih h]

theorem updateTpl_hw {t : Tree} {n : String} {d : DefineNode}
    (hw : ∀ k dd, findTpl t k = Option.some dd → dd.list ≠ OptList.none)
    (hd : d.list ≠ OptList.none) :
    ∀ k dd, findTpl (updateTpl t n d) k = Option.some dd →
      dd.list ≠ OptList.none := by
  intro k dd hk
  by_cases hkn : k = n
  · subst hkn
    cases hf : findTpl t k with
    | none =>
      rw [findTpl_update_none hf] at hk
      simp at hk
    | some d0 =>
      rw [findTpl_update_self hf] at hk
      cases hk
      exact hd
  · rw [findTpl_update_other hkn] at hk
    exact hw k dd hk

theorem inlineDefine_hw : ∀ (fuel : Nat) (t : Tree) (n : String) (t2 : Tree),
    (∀ k dd, findTpl t k = Option.some dd → dd.list ≠ OptList.none) →
    inlineDefine t n fuel = Except.ok t2 →
    ∀ k dd, findTpl t2 k = Option.some dd → dd.list ≠ OptList.none := by
  intro fuel
  induction fuel with
  | zero =>
    intro t n t2 _ h
    simp [inlineDefine] at h
  | succ f ih =>
    intro t n t2 hw h
    simp only [inlineDefine] at h
    split at h
    · simp at h
    · rename_i define hfind
      by_cases hpar : define.parent = ""
      · rw [if_pos hpar] at h
        have ht2 : t2 = updateTpl t n { define with list := cleanupOpt define.list } := by
          cases h; rfl
        subst ht2
        apply updateTpl_hw hw
        have hdl : define.list ≠ OptList.none := hw n define hfind
        cases hc : define.list with
        | none => exact absurd hc hdl
        | some l => simp [hc, cleanupOpt]
      · rw [if_neg hpar] at h
        split at h
        · simp at h
        · rename_i parent hfp
          split at h
          · simp at h
          · rename_i defNodes hdl
            split at h
            · simp at h
            · rename_i finalList happ
              have hpl : parent.list ≠ OptList.none := hw define.parent parent hfp
              cases hplc : parent.list with
              | none => exact absurd hplc hpl
              | some pl =>
                rw [hplc, applyOpt_some] at happ
                simp only [appendNodes, Option.some.injEq] at happ
                refine ih _ _ _ (updateTpl_hw hw ?_) h
                rw [← happ]
                simp
/-! The chain computed by `parentList` bounds the recursion depth of
`inlineDefine`: with enough fuel the call succeeds. -/

theorem inlineDefine_ok : ∀ (fuel : Nat) (t : Tree) (n : String) (l : List String),
    (∀ k dd, findTpl t k = Option.some dd → dd.list ≠ OptList.none) →
    parentList t n = .ok l → l.length ≤ fuel →
    ∃ t2, inlineDefine t n fuel = Except.ok t2 := by
  intro fuel
  induction fuel with
  | zero =>
    intro t n l _ h hlen
    obtain ⟨m, hl, hh, _, _, _, _, _⟩ := plLoop_ok_shape _ _ _ _ h
    have hlm : l = m := by simpa using hl
    subst hlm
    cases l with
    | nil => simp at hh
    | cons a l2 => simp at hlen
  | succ f ih =>
    intro t n l hw h hlen
    obtain ⟨m, hl, hh, _, _, hdef, _, _⟩ := plLoop_ok_shape _ _ _ _ h
    have hlm : l = m := by simpa using hl
    rw [hlm] at h hlen
    clear hl hlm
    cases m with
    | nil => simp at hh
    | cons n1 m1 =>
      have hn1 : n1 = n := by simpa using hh
      subst hn1
      obtain ⟨d, hfd⟩ := Option.isSome_iff_exists.mp
        (by simpa [hasDefB] using hdef n1 (by simp))
      by_cases hpar : d.parent = ""
      · exact ⟨_, inlineDefine_root hfd hpar⟩
      · have hstep : parentListLoop t t.length d.parent [n1] = .ok (n1 :: m1) := by
          have h2 := h
          simp only [parentList] at h2
          rw [plLoop_step hfd (by simp) hpar] at h2
          simpa using h2
        obtain ⟨m2, hl2, hh2, hnd2, hfr2, hdef2, _, _⟩ := plLoop_ok_shape _ _ _ _ hstep
        have hm2 : m1 = m2 := by simpa using hl2
        rw [hm2] at hstep hlen
        clear hl2 hm2
        cases m2 with
        | nil => simp at hh2
        | cons p m5 =>
          have hp1 : p = d.parent := by simpa using hh2
          subst hp1
          obtain ⟨pd, hfp⟩ := Option.isSome_iff_exists.mp
            (by simpa [hasDefB] using hdef2 d.parent (by simp))
          have hdl : d.list ≠ OptList.none := hw n1 d hfd
          cases hdlc : d.list with
          | none => exact absurd hdlc hdl
          | some defNodes =>
            have hpln : pd.list ≠ OptList.none := hw d.parent pd hfp
            cases hplc : pd.list with
            | none => exact absurd hplc hpln
            | some pl =>
              cases hTlen : t.length with
              | zero =>
                rw [hTlen] at hstep
                simp [parentListLoop] at hstep
              | succ tl =>
                rw [hTlen] at hstep
                have hfrp : d.parent ∉ [n1] := hfr2 d.parent (by simp)
                have hw3 : ∀ k dd,
                    findTpl (updateTpl t n1
                      { parent := pd.parent,
                        list := OptList.some (appendNL
                          (applyList (collectFillers defNodes []) pl []).1
                          (leftoverFills (collectFillers defNodes [])
                            (applyList (collectFillers defNodes []) pl []).2)) }) k =
                      Option.some dd → dd.list ≠ OptList.none := by
                  apply updateTpl_hw hw
                  simp
                have hfd3 : findTpl (updateTpl t n1
                    { parent := pd.parent,
                      list := OptList.some (appendNL
                        (applyList (collectFillers defNodes []) pl []).1
                        (leftoverFills (collectFillers defNodes [])
                          (applyList (collectFillers defNodes []) pl []).2)) }) n1 =
                    Option.some
                      { parent := pd.parent,
                        list := OptList.some (appendNL
                          (applyList (collectFillers defNodes []) pl []).1
                          (leftoverFills (collectFillers defNodes [])
                            (applyList (collectFillers defNodes [])
                              pl []).2)) } :=
                  findTpl_update_self hfd
                by_cases hq : pd.parent = ""
                · have hroot := @plLoop_root t tl d.parent [n1] pd hfp hfrp hq
                  have heq := hroot.symm.trans hstep
                  simp only [PLResult.ok.injEq] at heq
                  have hm5 : m5 = [] := by
                    have : [n1, d.parent] = n1 :: d.parent :: m5 := by simpa using heq
                    simpa using this
                  subst hm5
                  have hpl3 : parentList (updateTpl t n1
                      { parent := pd.parent,
                        list := OptList.some (appendNL
                          (applyList (collectFillers defNodes []) pl []).1
                          (leftoverFills (collectFillers defNodes [])
                            (applyList (collectFillers defNodes []) pl []).2)) }) n1 =
                      .ok [n1] := by
                    simp only [parentList]
                    exact plLoop_root hfd3 (by simp) hq
                  obtain ⟨t2, ht2⟩ := ih _ n1 [n1] hw3 hpl3 (by simp at hlen ⊢; omega)
                  exact ⟨t2, by rw [inlineDefine_step hfd hpar hfp hdlc hplc]; exact ht2⟩
                · have hstep2 : parentListLoop t tl pd.parent ([n1] ++ [d.parent]) =
                      .ok (([n1] ++ [d.parent]) ++ m5) := by
                    rw [← plLoop_step hfp hfrp hq]
                    simpa using hstep
                  have hshift := plLoop_acc_shift tl pd.parent ([n1] ++ [d.parent]) [n1] m5
                    hstep2 (List.nodup_cons.mp hnd2).2
                    (by
                      intro x hx
                      exact hfr2 x (List.mem_cons_of_mem _ hx))
                  have hcongr := @plLoop_congr t (updateTpl t n1
                      { parent := pd.parent,
                        list := OptList.some (appendNL
                          (applyList (collectFillers defNodes []) pl []).1
                          (leftoverFills (collectFillers defNodes [])
                            (applyList (collectFillers defNodes []) pl []).2)) })
                    tl pd.parent [n1] m5 hshift
                    (by
                      intro x hx
                      have hxn : x ≠ n1 := by
                        have := hfr2 x (List.mem_cons_of_mem _ hx)
                        simpa using this
                      exact findTpl_update_other hxn)
                  have hmono := plLoop_mono tl (tl + 1) pd.parent [n1] ([n1] ++ m5)
                    (by omega) hcongr
                  have hpl3 : parentList (updateTpl t n1
                      { parent := pd.parent,
                        list := OptList.some (appendNL
                          (applyList (collectFillers defNodes []) pl []).1
                          (leftoverFills (collectFillers defNodes [])
                            (applyList (collectFillers defNodes []) pl []).2)) }) n1 =
                      .ok (n1 :: m5) := by
                    simp only [parentList]
                    have hlen3 : (updateTpl t n1
                        { parent := pd.parent,
                          list := OptList.some (appendNL
                            (applyList (collectFillers defNodes []) pl []).1
                            (leftoverFills (collectFillers defNodes [])
                              (applyList (collectFillers defNodes [])
                                pl []).2)) }).length = tl + 1 := by
                      rw [updateTpl_length, hTlen]
                    rw [hlen3]
                    rw [plLoop_step hfd3 (by simp) hq]
                    simpa using hmono
                  obtain ⟨t2, ht2⟩ := ih _ n1 (n1 :: m5) hw3 hpl3
                    (by simp at hlen ⊢; omega)
                  exact ⟨t2, by rw [inlineDefine_step hfd hpar hfp hdlc hplc]; exact ht2⟩
theorem inlineDefines_ok : ∀ (names : List String) (t : Tree),
    (∀ k dd, findTpl t k = Option.some dd → dd.list ≠ OptList.none) →
    (∀ k ∈ keysOf t, ∃ l, parentList t k = .ok l) →
    (∀ n2 ∈ names, n2 ∈ keysOf t) →
    ∃ t2, inlineDefines t names = Except.ok t2 := by
  intro names
  induction names with
  | nil =>
    intro t _ _ _
    exact ⟨t, rfl⟩
  | cons n rest ih =>
    intro t hw hall hsub
    obtain ⟨l, hl⟩ := hall n (hsub n (by simp))
    obtain ⟨tm, htm⟩ := inlineDefine_ok (t.length + 1) t n l hw hl
      (by have := parentList_ok_length hl; omega)
    obtain ⟨⟨d2, hd2, hp2, _⟩, hframe, hlen2, hkeys⟩ := inlineDefine_post _ _ _ _ htm
    have hrec : ∃ t2, inlineDefines tm rest = Except.ok t2 := by
      apply ih tm (inlineDefine_hw _ _ _ _ hw htm)
      · intro k hk
        rw [hkeys] at hk
        obtain ⟨lk, hlk⟩ := hall k hk
        obtain ⟨l2, hl2⟩ := plLoop_trunc hd2 hp2 hframe (t.length + 1) k [] lk
          (by simpa [parentList] using hlk)
        refine ⟨l2, ?_⟩
        simp only [parentList, hlen2]
        exact hl2
      · intro n2 hn2
        rw [hkeys]
        exact hsub n2 (by simp [hn2])
    obtain ⟨t2, ht2⟩ := hrec
    refine ⟨t2, ?_⟩
    simp only [inlineDefines]
    rw [htm]
    exact ht2

/-- A define whose body list is nil, written as a decidable bound over the
tree's entries. -/
def listNonNil : OptList → Bool
  | OptList.none => false
  | OptList.some _ => true

theorem findTpl_mem {t : Tree} {k : String} {d : DefineNode}
    (h : findTpl t k = Option.some d) : (k, d) ∈ t := by
  induction t with
  | nil => simp [findTpl] at h
  | cons kv rest ih =>
    obtain ⟨k2, d2⟩ := kv
    by_cases h2 : k2 = k
    · subst h2
      simp [findTpl] at h
      subst h
      simp
    · simp only [findTpl, if_neg h2] at h
      exact List.mem_cons_of_mem _ (ih h)

theorem hw_of_all {t : Tree} (h : t.all (fun e => listNonNil e.2.list) = true) :
    ∀ k dd, findTpl t k = Option.some dd → dd.list ≠ OptList.none := by
  intro k dd hk hn
  have hmem := findTpl_mem hk
  have := List.all_eq_true.mp h _ hmem
  rw [hn] at this
  simp [listNonNil] at this

/-- C9: whenever `compilationOrder` succeeds on a tree whose defines all
have non-nil body lists (as the parser guarantees), every parent reached
while re-parenting is present in the tree, the undefined-parent branch of
`inlineDefine` is never taken, and `inlineTree` succeeds. -/
theorem c9_inlineTree_ok {t : Tree} {order : List String}
    (hw : ∀ k d, findTpl t k = Option.some d → d.list ≠ OptList.none)
    (h : compilationOrder t = Except.ok order) :
    ∃ t2, inlineTree t = Except.ok t2 := by
  obtain ⟨t2, ht2⟩ := inlineDefines_ok order t hw (compilationOrder_chains h)
    (compilationOrder_mem_keys h)
  refine ⟨t2, ?_⟩
  simp only [inlineTree]
  rw [h]
  exact ht2

/-- C9 witness: the five-level slot fixture satisfies both hypotheses and
its inlining succeeds. -/
theorem c9_inlineTree_ok_witness :
    compilationOrder slotTree =
      Except.ok ["tpl5", "tpl4", "tpl3", "tpl2", "tpl1"] ∧
    ∃ t2, inlineTree slotTree = Except.ok t2 :=
  ⟨rfl, c9_inlineTree_ok (hw_of_all (by decide)) rfl⟩

end GT
